import Mathlib

/-!
Shallow embedding of the RoboUber dispatcher (dispatcher.py).

Modelling conventions:
* Python dicts are insertion-ordered association lists (`dictGet`, `dictSet`,
  `dictDel` reproduce lookup / overwrite-in-place-or-append / del).
* Python list indexing, including negative indices, is `pyIdx`; an
  out-of-range access is an `Err.indexError`.
* Map nodes are identified with their coordinates: the world's `getNode` is
  the identity and the external collaborator is abstracted by an arbitrary
  `travelTime` function on coordinates.
* numpy's random draws are an injected entropy source `Rng`
  (`randBelow n` models `numpy.random.randint(n)`, `randRange a b` models
  `numpy.random.randint(a, b)`); both return naturals, mirroring the
  non-negative integers numpy produces.
* Each effectful operation returns the dispatcher state as mutated so far,
  the outbound calls made through the world boundary (`Event`s), and
  `Option Err`: `some e` means the Python code raises exception `e` at that
  point, with the returned state/events those already produced.
-/

/-- Python-style dictionary lookup on an insertion-ordered association list:
returns the value at the first matching key. -/
def dictGet {κ ν : Type} [DecidableEq κ] : List (κ × ν) → κ → Option ν
  | [], _ => none
  | (k, v) :: rest, k2 => if k2 = k then some v else dictGet rest k2

/-- Python-style dictionary write: overwrites in place if the key is present,
otherwise appends at the end (dict insertion-order semantics). -/
def dictSet {κ ν : Type} [DecidableEq κ] : List (κ × ν) → κ → ν → List (κ × ν)
  | [], k2, v2 => [(k2, v2)]
  | (k, v) :: rest, k2, v2 =>
    if k2 = k then (k2, v2) :: rest else (k, v) :: dictSet rest k2 v2

/-- Python-style `del`: removes the entry at the key, if present. -/
def dictDel {κ ν : Type} [DecidableEq κ] : List (κ × ν) → κ → List (κ × ν)
  | [], _ => []
  | (k, v) :: rest, k2 => if k2 = k then rest else (k, v) :: dictDel rest k2

/-- Python list indexing: negative indices count from the end; an index still
out of range after that adjustment is an IndexError (modelled as `none`). -/
def pyIdx {α : Type} (xs : List α) (i : Int) : Option α :=
  let j : Int := if i < 0 then (xs.length : Int) + i else i
  if j < 0 then none else xs.get? j.toNat

/-- Coordinates in the service area; nodes are identified with coordinates. -/
abbrev Coord := Int × Int

/-- A fare as seen from a taxi's `_availableFares` dictionary: only the
`allocated` flag and the `destination` are read by the dispatcher. -/
structure PyFare where
  allocated : Bool
  destination : Coord
deriving DecidableEq

/-- The slice of taxi state the dispatcher reads: `_passenger` truthiness,
the values of `_availableFares`, `_path`, `_loc` and `currentLocation`.
`tid` stands in for Python object identity. -/
structure Taxi where
  tid : Nat
  passenger : Bool
  availableFares : List PyFare
  path : List Coord
  loc : Coord
  currentLocation : Coord
deriving DecidableEq

/-- FareEntry from dispatcher.py: price 0 until priced, taxi -1 until
allocated, bidders a plain list of taxi indices. -/
structure FareEntry where
  origin : Coord
  destination : Coord
  calltime : Int
  price : Int
  taxi : Int
  bidders : List Nat
deriving DecidableEq

abbrev TimeMap := List (Int × FareEntry)
abbrev DestMap := List (Coord × TimeMap)
abbrev Board := List (Coord × DestMap)

/-- Outbound calls the dispatcher makes through its parent world. -/
inductive Event where
  | broadcastFare (origin destination : Coord) (price : Int)
  | allocateFare (origin : Coord) (taxi : Taxi)
  | cancelNotice (origin : Coord) (taxi : Taxi)
deriving DecidableEq

/-- Python exceptions the dispatcher code can raise. -/
inductive Err where
  | indexError
  | keyError
  | valueError
deriving DecidableEq

/-- The external world collaborator: an identity (for the `parent ==
self._parent` guards), the travel-time estimate, and the simulation clock. -/
structure World where
  wid : Nat
  travelTime : Coord → Coord → Int
  simTime : Int

/-- Injected entropy source standing in for numpy.random. -/
structure Rng where
  randBelow : Nat → Nat
  randRange : Nat → Nat → Nat

/-- Dispatcher state: owning world identity, revenue, taxi registry, fare
board and cancellation counter. -/
structure Dispatcher where
  parentId : Nat
  revenue : Int
  taxis : List Taxi
  fareBoard : Board
  cancelled : Nat
deriving DecidableEq

/-- Fresh dispatcher as built by the constructor. -/
def initDispatcher (pid : Nat) (taxis : List Taxi) : Dispatcher :=
  ⟨pid, 0, taxis, [], 0⟩

/-- Triple-level lookup `self._fareBoard[origin][destination][time]`. -/
def lookupEntry (b : Board) (origin destination : Coord) (τ : Int) : Option FareEntry :=
  match dictGet b origin with
  | none => none
  | some dm =>
    match dictGet dm destination with
    | none => none
    | some tm => dictGet tm τ

/-- Rewrites the record at an existing (origin, destination, time) key;
identity if the key is absent.  Models in-place mutation of the FareEntry
object reached by the triple index. -/
def updateEntry (b : Board) (origin destination : Coord) (τ : Int)
    (f : FareEntry → FareEntry) : Board :=
  match dictGet b origin with
  | none => b
  | some dm =>
    match dictGet dm destination with
    | none => b
    | some tm =>
      match dictGet tm τ with
      | none => b
      | some e => dictSet b origin (dictSet dm destination (dictSet tm τ (f e)))

/-- Dispatcher.addTaxi. -/
def addTaxi (d : Dispatcher) (taxi : Taxi) : Dispatcher :=
  if taxi ∈ d.taxis then d else { d with taxis := d.taxis ++ [taxi] }

/-- Dispatcher.newFare: guarded by the owning-world check, then inserts a
fresh unpriced, unallocated record, creating intermediate levels as needed
(overwriting any record at the same triple). -/
def newFare (w : World) (d : Dispatcher) (origin destination : Coord) (time : Int) :
    Dispatcher :=
  if w.wid = d.parentId then
    let fare : FareEntry := ⟨origin, destination, time, 0, -1, []⟩
    let dm : DestMap :=
      match dictGet d.fareBoard origin with
      | some dm => dm
      | none => []
    let tm : TimeMap :=
      match dictGet dm destination with
      | some tm => tm
      | none => []
    { d with fareBoard :=
        dictSet d.fareBoard origin (dictSet dm destination (dictSet tm time fare)) }
  else d

/-- Dispatcher.cancelFare: on a present key it increments the cancellation
counter, notifies `self._taxis[entry.taxi]` (Python indexing, so taxi = -1
addresses the LAST registered taxi, and an empty registry is an
IndexError), deletes the record and prunes empty levels.  The two pruning
checks also run when only the calltime is absent. -/
def cancelFare (w : World) (d : Dispatcher) (origin destination : Coord) (calltime : Int) :
    Dispatcher × List Event × Option Err :=
  if w.wid = d.parentId then
    match dictGet d.fareBoard origin with
    | none => (d, [], none)
    | some dm =>
      match dictGet dm destination with
      | none => (d, [], none)
      | some tm =>
        match dictGet tm calltime with
        | none =>
          let dm2 : DestMap := if tm.isEmpty then dictDel dm destination else dm
          let b2 : Board :=
            if dm2.isEmpty then dictDel d.fareBoard origin
            else dictSet d.fareBoard origin dm2
          ({ d with fareBoard := b2 }, [], none)
        | some entry =>
          match pyIdx d.taxis entry.taxi with
          | none => ({ d with cancelled := d.cancelled + 1 }, [], some Err.indexError)
          | some t =>
            let tm2 : TimeMap := dictDel tm calltime
            let dm2 : DestMap :=
              if tm2.isEmpty then dictDel dm destination else dictSet dm destination tm2
            let b2 : Board :=
              if dm2.isEmpty then dictDel d.fareBoard origin
              else dictSet d.fareBoard origin dm2
            ({ d with fareBoard := b2, cancelled := d.cancelled + 1 },
             [Event.cancelNotice origin t], none)
  else (d, [], none)

/-- Index of the first structurally equal taxi, as `self._taxis.index`. -/
def pyIndexOf (l : List Taxi) (t : Taxi) : Nat :=
  l.findIdx (fun x => decide (x = t))

/-- The scan inside Dispatcher.fareBid: first record under the origin (in
dict order, destinations outer, times inner) whose taxi field is -1. -/
def findFirstUnassigned : DestMap → Option (Coord × Int)
  | [] => none
  | (dst, tm) :: rest =>
    match tm.find? (fun p => decide (p.2.taxi = -1)) with
    | some p => some (dst, p.1)
    | none => findFirstUnassigned rest

/-- Dispatcher.fareBid: known taxis append their registry index to the first
unassigned fare under the origin; unknown taxis and absent origins are
ignored. -/
def fareBid (d : Dispatcher) (origin : Coord) (taxi : Taxi) : Dispatcher :=
  if taxi ∈ d.taxis then
    match dictGet d.fareBoard origin with
    | none => d
    | some dm =>
      match findFirstUnassigned dm with
      | none => d
      | some p =>
        let f : FareEntry → FareEntry :=
          fun e => { e with bidders := e.bidders ++ [pyIndexOf d.taxis taxi] }
        { d with fareBoard := updateEntry d.fareBoard origin p.1 p.2 f }
  else d

/-- Dispatcher.recvPayment. -/
def recvPayment (w : World) (d : Dispatcher) (amount : Int) : Dispatcher :=
  if w.wid = d.parentId then { d with revenue := d.revenue + amount } else d

/-- Dispatcher.handover: registers the taxi if unknown, records the fare and
overwrites its allocation and price. -/
def handover (w : World) (d : Dispatcher) (origin destination : Coord) (time : Int)
    (taxi : Taxi) (price : Int) : Dispatcher :=
  if w.wid = d.parentId then
    let d1 := if taxi ∈ d.taxis then d else { d with taxis := d.taxis ++ [taxi] }
    let d2 := newFare w d1 origin destination time
    let f : FareEntry → FareEntry :=
      fun e => { e with taxi := (pyIndexOf d2.taxis taxi : Int), price := price }
    { d2 with fareBoard := updateEntry d2.fareBoard origin destination time f }
  else d

/-- The per-taxi classification loop of Dispatcher._costFare: counts units
with fewer than two allocated fares (`available`) and collects the
projected total times (`total_times`).  A busy unit with one allocation
contributes current-leg + new travel time; with two allocations it adds the
detour to the second destination; an idle unit contributes the raw travel
time.  An empty `_path` on a contributing busy unit is an IndexError. -/
def costScan (w : World) (ttd : Int) : List Taxi → Except Err (Nat × List Int)
  | [] => Except.ok (0, [])
  | t :: rest =>
    let allocs := t.availableFares.filter (fun f => f.allocated)
    let availInc : Nat := if allocs.length < 2 then 1 else 0
    let contribution : Except Err (List Int) :=
      if t.passenger then
        if allocs.length = 1 then
          match t.path.head? with
          | none => Except.error Err.indexError
          | some p0 => Except.ok [w.travelTime t.loc p0 + ttd]
        else if allocs.length = 2 then
          match t.path.head?, allocs.get? 1 with
          | some p0, some a1 =>
            Except.ok [w.travelTime t.loc p0 + ttd + w.travelTime p0 a1.destination]
          | _, _ => Except.error Err.indexError
        else Except.ok []
      else Except.ok [ttd]
    match contribution, costScan w ttd rest with
    | Except.error e, _ => Except.error e
    | Except.ok _, Except.error e => Except.error e
    | Except.ok ts, Except.ok p => Except.ok (availInc + p.1, ts ++ p.2)

/-- Dispatcher._costFare: flat 150 on a negative (gridlocked) travel time or
fewer than two available units; otherwise 10, plus 7 per projected time
exceeding twice the travel time, plus the travel time, plus the random
component randint(10,15) * randint(len(available)). -/
def costFare (w : World) (rng : Rng) (taxis : List Taxi) (fare : FareEntry) :
    Except Err Int :=
  let ttd := w.travelTime fare.origin fare.destination
  if ttd < 0 then Except.ok 150
  else
    match costScan w ttd taxis with
    | Except.error e => Except.error e
    | Except.ok p =>
      if p.1 < 2 then Except.ok 150
      else
        let surcharge : Int := 7 * ((p.2.filter (fun x => ttd * 2 < x)).length : Int)
        let expectedBids := rng.randBelow p.1
        let noise := rng.randRange 10 15
        Except.ok (10 + surcharge + ttd + (noise : Int) * (expectedBids : Int))

/-- The `free` list built inside Dispatcher.testFree: bidders whose taxi has
no passenger, faulting on an out-of-range bidder index. -/
def buildFree (reg : List Taxi) : List Nat → Except Err (List Nat)
  | [] => Except.ok []
  | i :: rest =>
    match reg.get? i with
    | none => Except.error Err.indexError
    | some t =>
      match buildFree reg rest with
      | Except.error e => Except.error e
      | Except.ok f => Except.ok (if t.passenger then f else i :: f)

/-- Removes the first occurrence of a string from a list (list.remove). -/
def removeFirstStr (s : String) : List String → List String
  | [] => []
  | x :: rest => if x = s then rest else x :: removeFirstStr s rest

/-- The elimination loop of Dispatcher.testFree: for every bidder not in the
free list, `vari[taxiIdx].remove("allocate")` — a KeyError if the bidder is
not a key of vari, a ValueError if "allocate" was already removed. -/
def removeLoop (free : List Nat) : List Nat → List (Nat × List String) →
    List (Nat × List String) × Option Err
  | [], v => (v, none)
  | i :: rest, v =>
    if i ∈ free then removeLoop free rest v
    else
      match dictGet v i with
      | none => (v, some Err.keyError)
      | some flags =>
        if "allocate" ∈ flags then
          removeLoop free rest (dictSet v i (removeFirstStr "allocate" flags))
        else (v, some Err.valueError)

/-- Dispatcher.testFree. -/
def testFree (reg : List Taxi) (taxis : List Nat) (vari : List (Nat × List String)) :
    List (Nat × List String) × Option Err :=
  match buildFree reg taxis with
  | Except.error e => (vari, some e)
  | Except.ok free =>
    if 1 ≤ free.length then removeLoop free taxis vari else (vari, none)

/-- The distance-collection loop of Dispatcher.testDist: for every bidder
still holding "allocate", a busy taxi's cost is current location → final
path node (its drop-off) plus drop-off → new destination; an idle taxi's
cost is current location → new destination. -/
def distLoop (w : World) (reg : List Taxi) (dest : Coord)
    (vari : List (Nat × List String)) :
    List Nat → List (Nat × Int) → Except Err (List (Nat × Int))
  | [], acc => Except.ok acc
  | i :: rest, acc =>
    match dictGet vari i with
    | none => Except.error Err.keyError
    | some flags =>
      if "allocate" ∈ flags then
        match reg.get? i with
        | none => Except.error Err.indexError
        | some t =>
          if t.passenger then
            match t.path.getLast? with
            | none => Except.error Err.indexError
            | some dropoff =>
              distLoop w reg dest vari rest
                (dictSet acc i (w.travelTime t.currentLocation dropoff +
                  w.travelTime dropoff dest))
          else
            distLoop w reg dest vari rest
              (dictSet acc i (w.travelTime t.currentLocation dest))
      else distLoop w reg dest vari rest acc

/-- The lowest-distance fold of Dispatcher.testDist: forward scan keeping the
first strict minimum. -/
def minLoopGo (best : Nat × Int) : List (Nat × Int) → Nat × Int
  | [] => best
  | p :: rest => if p.2 < best.2 then minLoopGo p rest else minLoopGo best rest

/-- `lowest` as computed in Dispatcher.testDist ([] stays empty on an empty
distances dict). -/
def minLoop : List (Nat × Int) → Option (Nat × Int)
  | [] => none
  | p :: rest => some (minLoopGo p rest)

/-- The final elimination loop of Dispatcher.testDist: every bidder other
than `lowest[0]` loses "allocate"; with an empty `lowest` and a nonempty
bidder list, `lowest[0]` is an IndexError. -/
def stripLoop (lowest : Option Nat) : List Nat → List (Nat × List String) →
    List (Nat × List String) × Option Err
  | [], v => (v, none)
  | i :: rest, v =>
    match lowest with
    | none => (v, some Err.indexError)
    | some lo =>
      if i = lo then stripLoop lowest rest v
      else
        match dictGet v i with
        | none => (v, some Err.keyError)
        | some flags =>
          if "allocate" ∈ flags then
            stripLoop lowest rest (dictSet v i (removeFirstStr "allocate" flags))
          else stripLoop lowest rest v

/-- Dispatcher.testDist. -/
def testDist (w : World) (reg : List Taxi) (destination : Coord) (taxis : List Nat)
    (vari : List (Nat × List String)) : List (Nat × List String) × Option Err :=
  match distLoop w reg destination vari taxis [] with
  | Except.error e => (vari, some e)
  | Except.ok dists => stripLoop ((minLoop dists).map Prod.fst) taxis vari

/-- The initial domain dictionary of Dispatcher._allocateFare: every bidder
index within range of the registry maps to ["allocate", "no"]. -/
def buildVari (n : Nat) (bidders : List Nat) : List (Nat × List String) :=
  bidders.foldl (fun v i => if i < n then dictSet v i ["allocate", "no"] else v) []

/-- The winner loop of Dispatcher._allocateFare: every vari entry still
holding "allocate" is written to the fare record and notified. -/
def winnerLoop (reg : List Taxi) (origin : Coord) :
    List (Nat × List String) → FareEntry → FareEntry × List Event × Option Err
  | [], e => (e, [], none)
  | (k, flags) :: rest, e =>
    if "allocate" ∈ flags then
      let e2 : FareEntry := { e with taxi := (k : Int) }
      match reg.get? k with
      | none => (e2, [], some Err.indexError)
      | some t =>
        let r := winnerLoop reg origin rest e2
        (r.1, Event.allocateFare origin t :: r.2.1, r.2.2)
    else winnerLoop reg origin rest e

/-- Dispatcher._allocateFare: behind the `simTime - time > 3` gate, builds
the candidate domains from in-range bidders, then testFree, testDist, and
the winner loop.  All errors raised below surface unchanged. -/
def allocateFare (w : World) (d : Dispatcher) (origin destination : Coord) (τ : Int) :
    Dispatcher × List Event × Option Err :=
  if 3 < w.simTime - τ then
    match lookupEntry d.fareBoard origin destination τ with
    | none => (d, [], some Err.keyError)
    | some entry =>
      let vari0 := buildVari d.taxis.length entry.bidders
      if 1 ≤ vari0.length then
        match testFree d.taxis entry.bidders vari0 with
        | (_, some er) => (d, [], some er)
        | (vari1, none) =>
          match testDist w d.taxis destination entry.bidders vari1 with
          | (_, some er) => (d, [], some er)
          | (vari2, none) =>
            match winnerLoop d.taxis origin vari2 entry with
            | (entry2, evs, er) =>
              ({ d with fareBoard :=
                   updateEntry d.fareBoard origin destination τ (fun _ => entry2) },
               evs, er)
      else (d, [], none)
  else (d, [], none)

/-- Insert into a sorted list of times (ascending). -/
def insertSorted (x : Int) : List Int → List Int
  | [] => [x]
  | y :: rest => if x ≤ y then x :: y :: rest else y :: insertSorted x rest

/-- `sorted(list(...))` over call times. -/
def sortTimes (xs : List Int) : List Int := xs.foldr insertSorted []

/-- The iteration keys of Dispatcher.clockTick: origins and destinations in
dict order, call times ascending. -/
def boardKeys (b : Board) : List (Coord × Coord × Int) :=
  b.foldr (fun op acc =>
    op.2.foldr (fun dp acc2 =>
      (sortTimes (dp.2.map Prod.fst)).map (fun τ => (op.1, dp.1, τ)) ++ acc2) [] ++ acc) []

/-- One body iteration of Dispatcher.clockTick: price-and-broadcast an
unpriced fare, or run the allocator on an unallocated fare with bidders. -/
def tickStep (w : World) (rng : Rng) (key : Coord × Coord × Int) (d : Dispatcher) :
    Dispatcher × List Event × Option Err :=
  match lookupEntry d.fareBoard key.1 key.2.1 key.2.2 with
  | none => (d, [], some Err.keyError)
  | some e =>
    if e.price = 0 then
      match costFare w rng d.taxis e with
      | Except.error er => (d, [], some er)
      | Except.ok p =>
        let b2 := updateEntry d.fareBoard key.1 key.2.1 key.2.2
          (fun e0 => { e0 with price := p })
        ({ d with fareBoard := b2 }, [Event.broadcastFare key.1 key.2.1 p], none)
    else if e.taxi < 0 ∧ 0 < e.bidders.length then
      allocateFare w d key.1 key.2.1 key.2.2
    else (d, [], none)

/-- Runs the clockTick body over a key list, threading state and stopping at
the first raised exception (which propagates to the world). -/
def runKeys (w : World) (rng : Rng) : List (Coord × Coord × Int) → Dispatcher →
    Dispatcher × List Event × Option Err
  | [], d => (d, [], none)
  | k :: rest, d =>
    let r := tickStep w rng k d
    match r.2.2 with
    | some er => (r.1, r.2.1, some er)
    | none =>
      let r2 := runKeys w rng rest r.1
      (r2.1, r.2.1 ++ r2.2.1, r2.2.2)

/-- Dispatcher.clockTick. -/
def clockTick (w : World) (rng : Rng) (d : Dispatcher) :
    Dispatcher × List Event × Option Err :=
  if w.wid = d.parentId then runKeys w rng (boardKeys d.fareBoard) d
  else (d, [], none)

/-- Iterated control loop (the world calling clockTick once per tick). -/
def clockTicks (w : World) (rng : Rng) : Nat → Dispatcher → Dispatcher
  | 0, d => d
  | n + 1, d => clockTicks w rng n (clockTick w rng d).1

/-! ### Association-list dictionary lemmas -/

theorem dictGet_set_self {κ ν : Type} [DecidableEq κ] (d : List (κ × ν)) (k : κ) (v : ν) :
    dictGet (dictSet d k v) k = some v := by
  induction d with
  | nil => simp [dictGet, dictSet]
  | cons q rest ih =>
    obtain ⟨qk, qv⟩ := q
    by_cases h : k = qk
    · subst h
      simp [dictSet, dictGet]
    · simp [dictSet, dictGet, h, ih]

theorem dictGet_set_ne {κ ν : Type} [DecidableEq κ] (d : List (κ × ν)) (k k2 : κ) (v : ν)
    (h : k2 ≠ k) : dictGet (dictSet d k v) k2 = dictGet d k2 := by
  induction d with
  | nil => simp [dictGet, dictSet, h]
  | cons q rest ih =>
    obtain ⟨qk, qv⟩ := q
    by_cases h1 : k = qk
    · subst h1
      simp [dictSet, dictGet, h]
    · by_cases h2 : k2 = qk
      · simp [dictSet, dictGet, h1, h2]
      · simp [dictSet, dictGet, h1, h2, ih]

theorem dictSet_ne_nil {κ ν : Type} [DecidableEq κ] (d : List (κ × ν)) (k : κ) (v : ν) :
    dictSet d k v ≠ [] := by
  cases d with
  | nil => simp [dictSet]
  | cons q rest =>
    obtain ⟨qk, qv⟩ := q
    by_cases h : k = qk <;> simp [dictSet, h]

theorem mem_dictSet {κ ν : Type} [DecidableEq κ] (d : List (κ × ν)) (k : κ) (v : ν)
    (p : κ × ν) (hp : p ∈ dictSet d k v) : p = (k, v) ∨ p ∈ d := by
  induction d with
  | nil => simpa [dictSet] using hp
  | cons q rest ih =>
    obtain ⟨qk, qv⟩ := q
    by_cases h : k = qk
    · subst h
      simp only [dictSet, if_pos rfl] at hp
      rcases List.mem_cons.mp hp with h1 | h1
      · left; exact h1
      · right; exact List.mem_cons_of_mem _ h1
    · rw [dictSet, if_neg (fun hc => h hc)] at hp
      rcases List.mem_cons.mp hp with h1 | h1
      · right; simp [h1]
      · rcases ih h1 with h2 | h2
        · left; exact h2
        · right; exact List.mem_cons_of_mem _ h2

theorem mem_dictDel {κ ν : Type} [DecidableEq κ] (d : List (κ × ν)) (k : κ)
    (p : κ × ν) (hp : p ∈ dictDel d k) : p ∈ d := by
  induction d with
  | nil => simp [dictDel] at hp
  | cons q rest ih =>
    obtain ⟨qk, qv⟩ := q
    by_cases h : k = qk
    · subst h
      rw [dictDel, if_pos rfl] at hp
      exact List.mem_cons_of_mem _ hp
    · rw [dictDel, if_neg (fun hc => h hc)] at hp
      rcases List.mem_cons.mp hp with h1 | h1
      · simp [h1]
      · exact List.mem_cons_of_mem _ (ih h1)

theorem dictGet_some_mem {κ ν : Type} [DecidableEq κ] (d : List (κ × ν)) (k : κ) (v : ν)
    (h : dictGet d k = some v) : (k, v) ∈ d := by
  induction d with
  | nil => simp [dictGet] at h
  | cons q rest ih =>
    obtain ⟨qk, qv⟩ := q
    by_cases h1 : k = qk
    · subst h1
      rw [dictGet, if_pos rfl] at h
      cases h
      exact List.mem_cons_self _ _
    · rw [dictGet, if_neg (fun hc => h1 hc)] at h
      exact List.mem_cons_of_mem _ (ih h)

/-- Keys of a dictionary are pairwise distinct; this invariant is preserved
by the dictionary operations and holds for every real Python dict. -/
def keysNodup {κ ν : Type} (d : List (κ × ν)) : Prop := (d.map Prod.fst).Nodup

theorem keysNodup_nil {κ ν : Type} : keysNodup ([] : List (κ × ν)) := by
  simp [keysNodup]

theorem keysNodup_dictSet {κ ν : Type} [DecidableEq κ] (d : List (κ × ν)) (k : κ) (v : ν)
    (h : keysNodup d) : keysNodup (dictSet d k v) := by
  induction d with
  | nil => simp [keysNodup, dictSet]
  | cons q rest ih =>
    obtain ⟨qk, qv⟩ := q
    simp only [keysNodup, List.map_cons, List.nodup_cons] at h
    by_cases h1 : k = qk
    · subst h1
      rw [dictSet, if_pos rfl]
      simp only [keysNodup, List.map_cons, List.nodup_cons]
      exact h
    · have h2 := ih h.2
      rw [dictSet, if_neg (fun hc => h1 hc)]
      simp only [keysNodup, List.map_cons, List.nodup_cons]
      refine ⟨?_, h2⟩
      intro hmem
      rcases List.mem_map.mp hmem with ⟨p, hp, hfst⟩
      rcases mem_dictSet rest k v p hp with h3 | h3
      · exact h1 (by rw [← hfst, h3])
      · exact h.1 (List.mem_map.mpr ⟨p, h3, hfst⟩)

theorem mem_dictGet_of_keysNodup {κ ν : Type} [DecidableEq κ] (d : List (κ × ν))
    (k : κ) (v : ν) (hn : keysNodup d) (h : (k, v) ∈ d) : dictGet d k = some v := by
  induction d with
  | nil => simp at h
  | cons q rest ih =>
    obtain ⟨qk, qv⟩ := q
    simp only [keysNodup, List.map_cons, List.nodup_cons] at hn
    rcases List.mem_cons.mp h with h1 | h1
    · cases h1
      rw [dictGet, if_pos rfl]
    · have hk : k ≠ qk := by
        intro hkq
        exact hn.1 (List.mem_map.mpr ⟨(k, v), h1, by rw [hkq]⟩)
      rw [dictGet, if_neg hk]
      exact ih hn.2 h1

theorem dictSet_append_of_get_none {κ ν : Type} [DecidableEq κ] (d : List (κ × ν))
    (k : κ) (v : ν) (h : dictGet d k = none) : dictSet d k v = d ++ [(k, v)] := by
  induction d with
  | nil => simp [dictSet]
  | cons q rest ih =>
    obtain ⟨qk, qv⟩ := q
    by_cases h1 : k = qk
    · subst h1
      rw [dictGet, if_pos rfl] at h
      cases h
    · rw [dictGet, if_neg (fun hc => h1 hc)] at h
      rw [dictSet, if_neg (fun hc => h1 hc), List.cons_append, ih h]

theorem dictSet_keys_of_get_some {κ ν : Type} [DecidableEq κ] (d : List (κ × ν))
    (k : κ) (v v0 : ν) (h : dictGet d k = some v0) :
    (dictSet d k v).map Prod.fst = d.map Prod.fst := by
  induction d with
  | nil => simp [dictGet] at h
  | cons q rest ih =>
    obtain ⟨qk, qv⟩ := q
    by_cases h1 : k = qk
    · subst h1
      rw [dictSet, if_pos rfl]
      simp
    · rw [dictGet, if_neg (fun hc => h1 hc)] at h
      rw [dictSet, if_neg (fun hc => h1 hc)]
      simp [ih h]

/-! ### Board update lemmas -/

theorem lookupEntry_updateEntry_self (b : Board) (o dst : Coord) (τ : Int)
    (f : FareEntry → FareEntry) (e : FareEntry) (h : lookupEntry b o dst τ = some e) :
    lookupEntry (updateEntry b o dst τ f) o dst τ = some (f e) := by
  cases hb : dictGet b o with
  | none => simp [lookupEntry, hb] at h
  | some dm =>
    cases hd : dictGet dm dst with
    | none => simp [lookupEntry, hb, hd] at h
    | some tm =>
      cases ht : dictGet tm τ with
      | none => simp [lookupEntry, hb, hd, ht] at h
      | some e0 =>
        simp only [lookupEntry, hb, hd, ht, Option.some.injEq] at h
        subst h
        simp only [updateEntry, hb, hd, ht, lookupEntry, dictGet_set_self]

theorem lookupEntry_updateEntry_other (b : Board) (o dst : Coord) (τ : Int)
    (f : FareEntry → FareEntry) (o2 dst2 : Coord) (τ2 : Int)
    (h : ¬(o2 = o ∧ dst2 = dst ∧ τ2 = τ)) :
    lookupEntry (updateEntry b o dst τ f) o2 dst2 τ2 = lookupEntry b o2 dst2 τ2 := by
  cases hb : dictGet b o with
  | none => simp [updateEntry, hb]
  | some dm =>
    cases hd : dictGet dm dst with
    | none => simp [updateEntry, hb, hd]
    | some tm =>
      cases ht : dictGet tm τ with
      | none => simp [updateEntry, hb, hd, ht]
      | some e0 =>
        simp only [updateEntry, hb, hd, ht]
        by_cases ho : o2 = o
        · subst ho
          simp only [lookupEntry, dictGet_set_self, hb]
          by_cases hdst : dst2 = dst
          · subst hdst
            simp only [dictGet_set_self, hd]
            have hτ : τ2 ≠ τ := by
              intro hc
              exact h ⟨rfl, rfl, hc⟩
            rw [dictGet_set_ne _ _ _ _ hτ]
          · rw [dictGet_set_ne _ _ _ _ hdst]
        · simp only [lookupEntry]
          rw [dictGet_set_ne _ _ _ _ ho]

theorem updateEntry_absent (b : Board) (o dst : Coord) (τ : Int)
    (f : FareEntry → FareEntry) (h : lookupEntry b o dst τ = none) :
    updateEntry b o dst τ f = b := by
  cases hb : dictGet b o with
  | none => simp [updateEntry, hb]
  | some dm =>
    cases hd : dictGet dm dst with
    | none => simp [updateEntry, hb, hd]
    | some tm =>
      cases ht : dictGet tm τ with
      | none => simp [updateEntry, hb, hd, ht]
      | some e0 => simp [lookupEntry, hb, hd, ht] at h

/-! ### Claim C10: wrong-parent frame condition -/

/-- C10: every externally exposed operation taking a world argument —
newFare, cancelFare, recvPayment, clockTick — invoked with a parent whose
identity differs from the dispatcher's owning world leaves the dispatcher
state unchanged and emits no outbound call and no exception. -/
theorem wrongParent_frame (w : World) (rng : Rng) (d : Dispatcher)
    (origin destination : Coord) (τ amount : Int) (h : w.wid ≠ d.parentId) :
    newFare w d origin destination τ = d ∧
    cancelFare w d origin destination τ = (d, [], none) ∧
    recvPayment w d amount = d ∧
    clockTick w rng d = (d, [], none) := by
  refine ⟨?_, ?_, ?_, ?_⟩
  · unfold newFare; rw [if_neg h]
  · unfold cancelFare; rw [if_neg h]
  · unfold recvPayment; rw [if_neg h]
  · unfold clockTick; rw [if_neg h]

/-- Witness for C10 at a concrete wrong-parent call. -/
theorem wrongParent_frame_witness :
    (1 : Nat) ≠ (initDispatcher 0 []).parentId ∧
    newFare ⟨1, fun _ _ => 0, 0⟩ (initDispatcher 0 []) (0, 0) (1, 1) 0 =
      initDispatcher 0 [] ∧
    cancelFare ⟨1, fun _ _ => 0, 0⟩ (initDispatcher 0 []) (0, 0) (1, 1) 0 =
      (initDispatcher 0 [], [], none) ∧
    recvPayment ⟨1, fun _ _ => 0, 0⟩ (initDispatcher 0 []) 5 = initDispatcher 0 [] ∧
    clockTick ⟨1, fun _ _ => 0, 0⟩ ⟨fun _ => 0, fun a _ => a⟩ (initDispatcher 0 []) =
      (initDispatcher 0 [], [], none) := by
  have h := wrongParent_frame ⟨1, fun _ _ => 0, 0⟩ ⟨fun _ => 0, fun a _ => a⟩
    (initDispatcher 0 []) (0, 0) (1, 1) 0 5 (by decide)
  exact ⟨by decide, h.1, h.2.1, h.2.2.1, h.2.2.2⟩

/-! ### Concrete sample data used by witnesses and counterexamples -/

def tIdle : Taxi := ⟨0, false, [], [], (0, 0), (0, 0)⟩
def tBusy : Taxi := ⟨1, true, [⟨true, (9, 9)⟩], [(3, 3)], (1, 0), (1, 0)⟩
def manhattan : Coord → Coord → Int :=
  fun a b => ((a.1 - b.1).natAbs : Int) + ((a.2 - b.2).natAbs : Int)
def wLate : World := ⟨0, manhattan, 5⟩
def wEarly : World := ⟨0, manhattan, 2⟩
def rng1 : Rng := ⟨fun n => n - 1, fun a _ => a⟩

/-! ### Claim C1: out-of-range bidder entries -/

def fareC1 : FareEntry := ⟨(1, 1), (2, 2), 0, 20, -1, [0, 1]⟩
def dC1 : Dispatcher := ⟨0, 0, [tIdle], [((1, 1), [((2, 2), [(0, fareC1)])])], 0⟩

/-- C1: the claim fails on the code.  With one registered taxi, bidder list
[0, 1] and the deadline passed, the out-of-range entry 1 is filtered from
the candidate dictionary, but the raw bidder list is then handed to
testFree, which indexes the registry unguarded: the allocation raises an
IndexError instead of skipping the malformed entry. -/
theorem allocateFare_outOfRange_bidder_raises :
    allocateFare wLate dC1 (1, 1) (2, 2) 0 = (dC1, [], some Err.indexError) := by
  rfl

/-! ### Claim C2: cancelFare notification -/

def fareC2 : FareEntry := ⟨(1, 1), (2, 2), 0, 20, -1, []⟩
def dC2 : Dispatcher := ⟨0, 0, [tIdle, tBusy], [((1, 1), [((2, 2), [(0, fareC2)])])], 0⟩

/-- C2: the claim fails on the code.  Cancelling a fare with NO assigned
unit (taxi = -1) still emits a cancellation notice, addressed to the LAST
registered unit, because the code indexes the registry with the -1
sentinel (Python negative indexing). -/
theorem cancelFare_unassigned_emits_notice :
    cancelFare wLate dC2 (1, 1) (2, 2) 0 =
      ({ dC2 with fareBoard := [], cancelled := 1 },
       [Event.cancelNotice (1, 1) tBusy], none) := by
  rfl

/-! ### Claim C8: the bidder collection -/

def fareC8 : FareEntry := ⟨(1, 1), (2, 2), 0, 20, -1, []⟩
def dC8 : Dispatcher := ⟨0, 0, [tIdle], [((1, 1), [((2, 2), [(0, fareC8)])])], 0⟩

/-- C8 counterexample: the same registered unit bidding twice on the same
open fare occurs twice in the bidder list — the collection is a plain
list, not a set. -/
theorem fareBid_duplicate_counterexample :
    (lookupEntry (fareBid (fareBid dC8 (1, 1) tIdle) (1, 1) tIdle).fareBoard
      (1, 1) (2, 2) 0).map FareEntry.bidders = some [0, 0] := by
  rfl

/-- C8 (amended): the bidder collection is an insertion-ordered list: each
bid from a registered unit that reaches an unassigned fare under the origin
appends the unit's registry index, one occurrence per accepted bid, with no
uniqueness enforcement. -/
theorem fareBid_appends (d : Dispatcher) (origin : Coord) (taxi : Taxi)
    (dm : DestMap) (dst : Coord) (τ : Int) (entry : FareEntry)
    (ht : taxi ∈ d.taxis)
    (hdm : dictGet d.fareBoard origin = some dm)
    (hfind : findFirstUnassigned dm = some (dst, τ))
    (hentry : lookupEntry d.fareBoard origin dst τ = some entry) :
    lookupEntry (fareBid d origin taxi).fareBoard origin dst τ =
      some { entry with bidders := entry.bidders ++ [pyIndexOf d.taxis taxi] } := by
  simp only [fareBid, if_pos ht, hdm, hfind]
  exact lookupEntry_updateEntry_self _ _ _ _ _ _ hentry

/-- Witness for the amended C8 theorem at a concrete bid. -/
theorem fareBid_appends_witness :
    tIdle ∈ dC8.taxis ∧
    lookupEntry (fareBid dC8 (1, 1) tIdle).fareBoard (1, 1) (2, 2) 0 =
      some { fareC8 with bidders := fareC8.bidders ++ [pyIndexOf dC8.taxis tIdle] } :=
  ⟨by decide,
   fareBid_appends dC8 (1, 1) tIdle [((2, 2), [(0, fareC8)])] (2, 2) 0 fareC8
     (by decide) rfl rfl rfl⟩

/-! ### Claim C6: the pricing policy -/

/-- A taxi whose path is readable whenever the pricing scan needs it: busy
units with one or two allocated fares must have a nonempty planned path. -/
def PathOk (t : Taxi) : Prop :=
  t.passenger = true →
  ((t.availableFares.filter (fun f => f.allocated)).length = 1 ∨
   (t.availableFares.filter (fun f => f.allocated)).length = 2) →
  t.path ≠ []

/-- Spec-side count of available units: units with fewer than two active
(allocated) commitments. -/
def availCount (taxis : List Taxi) : Nat :=
  (taxis.filter
    (fun t => (t.availableFares.filter (fun f => f.allocated)).length < 2)).length

/-- Spec-side projected completion time of a busy unit: current leg plus the
candidate fare's travel time (plus the detour to the second destination if
the unit holds two commitments); none when the unit contributes no
projection. -/
def busyProjOpt (w : World) (ttd : Int) (t : Taxi) : Option Int :=
  let allocs := t.availableFares.filter (fun f => f.allocated)
  if allocs.length = 1 then
    t.path.head?.map (fun p0 => w.travelTime t.loc p0 + ttd)
  else if allocs.length = 2 then
    match t.path.head?, allocs.get? 1 with
    | some p0, some a1 =>
      some (w.travelTime t.loc p0 + ttd + w.travelTime p0 a1.destination)
    | _, _ => none
  else none

/-- Spec-side congestion test: a busy unit whose projected completion time
exceeds twice the raw travel time. -/
def congPred (w : World) (ttd : Int) (t : Taxi) : Bool :=
  t.passenger &&
    (match busyProjOpt w ttd t with
     | some x => decide (ttd * 2 < x)
     | none => false)

/-- Spec-side count of congested busy units. -/
def congestedCount (w : World) (ttd : Int) (taxis : List Taxi) : Nat :=
  (taxis.filter (congPred w ttd)).length

theorem availCount_cons (t : Taxi) (rest : List Taxi) :
    availCount (t :: rest) =
      (if (t.availableFares.filter (fun f => f.allocated)).length < 2 then 1 else 0) +
        availCount rest := by
  simp only [availCount, List.filter_cons]
  by_cases h : (t.availableFares.filter (fun f => f.allocated)).length < 2
  · simp [h, Nat.add_comm]
  · simp [h]

theorem congestedCount_cons (w : World) (ttd : Int) (t : Taxi) (rest : List Taxi) :
    congestedCount w ttd (t :: rest) =
      (if congPred w ttd t then 1 else 0) + congestedCount w ttd rest := by
  simp only [congestedCount, List.filter_cons]
  by_cases h : congPred w ttd t
  · simp [h, Nat.add_comm]
  · simp [h]

theorem costScan_char (w : World) (ttd : Int) (httd : 0 ≤ ttd) :
    ∀ taxis : List Taxi, (∀ t ∈ taxis, PathOk t) →
      ∃ ts : List Int, costScan w ttd taxis = Except.ok (availCount taxis, ts) ∧
        (ts.filter (fun x => ttd * 2 < x)).length = congestedCount w ttd taxis := by
  intro taxis
  induction taxis with
  | nil =>
    intro _
    exact ⟨[], rfl, rfl⟩
  | cons t rest ih =>
    intro hp
    obtain ⟨ts, hts, hcong⟩ := ih (fun t2 ht2 => hp t2 (List.mem_cons_of_mem _ ht2))
    have hpt := hp t (List.mem_cons_self _ _)
    have hno : ¬(ttd * 2 < ttd) := by omega
    cases hb : t.passenger with
    | false =>
      refine ⟨ttd :: ts, ?_, ?_⟩
      · simp only [costScan, hb, hts, Bool.false_eq_true, if_false, availCount_cons]
        rfl
      · have hcp : congPred w ttd t = false := by simp [congPred, hb]
        rw [congestedCount_cons]
        simp [hcp, List.filter_cons, hno, hcong]
    | true =>
      by_cases h1 : (t.availableFares.filter (fun f => f.allocated)).length = 1
      · have hpath : t.path ≠ [] := hpt hb (Or.inl h1)
        obtain ⟨p0, prest, hpeq⟩ : ∃ p0 prest, t.path = p0 :: prest := by
          cases hpp : t.path with
          | nil => exact absurd hpp hpath
          | cons a l => exact ⟨a, l, rfl⟩
        have hhead : t.path.head? = some p0 := by rw [hpeq]; rfl
        refine ⟨(w.travelTime t.loc p0 + ttd) :: ts, ?_, ?_⟩
        · simp only [costScan, hb, h1, hhead, hts, if_true, availCount_cons]
          rfl
        · have hproj : busyProjOpt w ttd t =
              some (w.travelTime t.loc p0 + ttd) := by
            simp [busyProjOpt, h1, hhead]
          have hcp : congPred w ttd t =
              decide (ttd * 2 < w.travelTime t.loc p0 + ttd) := by
            simp [congPred, hb, hproj]
          rw [congestedCount_cons, hcp]
          by_cases hlt : ttd * 2 < w.travelTime t.loc p0 + ttd
          · simp [List.filter_cons, hlt, hcong, Nat.add_comm]
          · simp [List.filter_cons, hlt, hcong]
      · by_cases h2 : (t.availableFares.filter (fun f => f.allocated)).length = 2
        · have hpath : t.path ≠ [] := hpt hb (Or.inr h2)
          obtain ⟨p0, prest, hpeq⟩ : ∃ p0 prest, t.path = p0 :: prest := by
            cases hpp : t.path with
            | nil => exact absurd hpp hpath
            | cons a l => exact ⟨a, l, rfl⟩
          have hhead : t.path.head? = some p0 := by rw [hpeq]; rfl
          obtain ⟨a0, a1, hA⟩ : ∃ a0 a1,
              t.availableFares.filter (fun f => f.allocated) = [a0, a1] := by
            cases hF : t.availableFares.filter (fun f => f.allocated) with
            | nil => rw [hF] at h2; simp at h2
            | cons x l =>
              cases l with
              | nil => rw [hF] at h2; simp at h2
              | cons y l2 =>
                rw [hF] at h2
                simp only [List.length_cons] at h2
                have hl2 : l2 = [] := List.eq_nil_of_length_eq_zero (by omega)
                exact ⟨x, y, by rw [hl2]⟩
          refine ⟨(w.travelTime t.loc p0 + ttd + w.travelTime p0 a1.destination) :: ts,
            ?_, ?_⟩
          · simp only [costScan, hb, h1, h2, hhead, hA, hts, if_true, if_false,
              availCount_cons]
            rfl
          · have hproj : busyProjOpt w ttd t =
                some (w.travelTime t.loc p0 + ttd + w.travelTime p0 a1.destination) := by
              simp [busyProjOpt, h1, h2, hhead, hA]
            have hcp : congPred w ttd t =
                decide (ttd * 2 <
                  w.travelTime t.loc p0 + ttd + w.travelTime p0 a1.destination) := by
              simp [congPred, hb, hproj]
            rw [congestedCount_cons, hcp]
            by_cases hlt : ttd * 2 <
                w.travelTime t.loc p0 + ttd + w.travelTime p0 a1.destination
            · simp [List.filter_cons, hlt, hcong, Nat.add_comm]
            · simp [List.filter_cons, hlt, hcong]
        · refine ⟨ts, ?_, ?_⟩
          · simp only [costScan, hb, h1, h2, hts, if_true, if_false, availCount_cons]
            rfl
          · have hproj : busyProjOpt w ttd t = none := by
              simp [busyProjOpt, h1, h2]
            have hcp : congPred w ttd t = false := by
              simp [congPred, hproj]
            rw [congestedCount_cons]
            simp [hcp, hcong]

/-- C6: the pricing function returns the flat price 150 whenever the
estimated travel time is negative (gridlock) and whenever fewer than two
units are available (fewer than two active commitments); otherwise it
returns base 10, plus 7 per congested busy unit, plus the raw travel time,
plus the randomized component scaled by the available-unit count. -/
theorem costFare_policy (w : World) (rng : Rng) (taxis : List Taxi) (fare : FareEntry)
    (hpaths : ∀ t ∈ taxis, PathOk t) :
    (w.travelTime fare.origin fare.destination < 0 →
       costFare w rng taxis fare = Except.ok 150) ∧
    (0 ≤ w.travelTime fare.origin fare.destination → availCount taxis < 2 →
       costFare w rng taxis fare = Except.ok 150) ∧
    (0 ≤ w.travelTime fare.origin fare.destination → 2 ≤ availCount taxis →
       costFare w rng taxis fare = Except.ok
         (10 + 7 * (congestedCount w (w.travelTime fare.origin fare.destination) taxis : Int)
            + w.travelTime fare.origin fare.destination
            + (rng.randRange 10 15 : Int) * (rng.randBelow (availCount taxis) : Int))) := by
  refine ⟨?_, ?_, ?_⟩
  · intro hneg
    simp [costFare, hneg]
  · intro hpos hfew
    obtain ⟨ts, hts, hcong⟩ :=
      costScan_char w (w.travelTime fare.origin fare.destination) hpos taxis hpaths
    have hneg : ¬(w.travelTime fare.origin fare.destination < 0) := by omega
    simp [costFare, hneg, hts, hfew]
  · intro hpos hmany
    obtain ⟨ts, hts, hcong⟩ :=
      costScan_char w (w.travelTime fare.origin fare.destination) hpos taxis hpaths
    have hneg : ¬(w.travelTime fare.origin fare.destination < 0) := by omega
    have hfew : ¬(availCount taxis < 2) := by omega
    simp [costFare, hneg, hts, hfew, hcong]

def wNeg : World := ⟨0, fun _ _ => -1, 5⟩
def tBusy2 : Taxi := ⟨2, true, [⟨true, (9, 9)⟩, ⟨true, (8, 8)⟩], [(3, 3)], (1, 0), (1, 0)⟩
def farePrice : FareEntry := ⟨(1, 1), (2, 2), 0, 0, -1, []⟩

/-- Witness for C6: all three pricing branches at concrete inputs. -/
theorem costFare_policy_witness :
    (∀ t ∈ [tIdle, tIdle], PathOk t) ∧
    costFare wNeg rng1 [tIdle, tIdle] farePrice = Except.ok 150 ∧
    costFare wLate rng1 [tBusy2, tBusy2] farePrice = Except.ok 150 ∧
    costFare wLate rng1 [tIdle, tIdle] farePrice = Except.ok 22 := by
  have hpi : ∀ t ∈ [tIdle, tIdle], PathOk t := by
    intro t ht
    simp only [List.mem_cons, List.not_mem_nil, or_false] at ht
    rcases ht with h | h <;> (subst h; intro hpass; simp [tIdle] at hpass)
  have hpb : ∀ t ∈ [tBusy2, tBusy2], PathOk t := by
    intro t ht
    simp only [List.mem_cons, List.not_mem_nil, or_false] at ht
    rcases ht with h | h <;> (subst h; intro hpass hlen; simp [tBusy2])
  refine ⟨hpi, ?_, ?_, ?_⟩
  · exact (costFare_policy wNeg rng1 [tIdle, tIdle] farePrice hpi).1 (by decide)
  · exact (costFare_policy wLate rng1 [tBusy2, tBusy2] farePrice hpb).2.1
      (by decide) (by decide)
  · have h := (costFare_policy wLate rng1 [tIdle, tIdle] farePrice hpi).2.2
      (by decide) (by decide)
    rw [h]
    rfl

/-! ### Claim C7: pricing idempotence -/

theorem costFare_pos (w : World) (rng : Rng) (taxis : List Taxi) (fare : FareEntry)
    (r : Int) (h : costFare w rng taxis fare = Except.ok r) : 0 < r := by
  by_cases hneg : w.travelTime fare.origin fare.destination < 0
  · simp [costFare, hneg] at h
    omega
  · cases hs : costScan w (w.travelTime fare.origin fare.destination) taxis with
    | error e => simp [costFare, hneg, hs] at h
    | ok p =>
      by_cases hfew : p.1 < 2
      · simp [costFare, hneg, hs, hfew] at h
        omega
      · simp [costFare, hneg, hs, hfew] at h
        have h1 : (0 : Int) ≤
            (rng.randRange 10 15 : Int) * (rng.randBelow p.1 : Int) :=
          mul_nonneg (Int.natCast_nonneg _) (Int.natCast_nonneg _)
        have h2 : (0 : Int) ≤ w.travelTime fare.origin fare.destination := by omega
        have h3 : (0 : Int) ≤
            7 * ((p.2.filter
              (fun x => w.travelTime fare.origin fare.destination * 2 < x)).length : Int) := by
          positivity
        linarith [h]

theorem winnerLoop_price (reg : List Taxi) (origin : Coord) :
    ∀ (l : List (Nat × List String)) (e : FareEntry),
      ((winnerLoop reg origin l e).1).price = e.price := by
  intro l
  induction l with
  | nil => intro e; rfl
  | cons p rest ih =>
    intro e
    obtain ⟨k, flags⟩ := p
    by_cases hf : "allocate" ∈ flags
    · simp only [winnerLoop, if_pos hf]
      cases hg : reg.get? k with
      | none => rfl
      | some t =>
        simpa using ih { e with taxi := (k : Int) }
    · simp only [winnerLoop, if_neg hf]
      exact ih e

theorem allocateFare_preserves_price (w : World) (d : Dispatcher) (o dst : Coord)
    (τ : Int) (o2 dst2 : Coord) (τ2 : Int) (e : FareEntry)
    (he : lookupEntry d.fareBoard o2 dst2 τ2 = some e) :
    ∃ e2, lookupEntry (allocateFare w d o dst τ).1.fareBoard o2 dst2 τ2 = some e2 ∧
      e2.price = e.price := by
  by_cases hgate : 3 < w.simTime - τ
  · simp only [allocateFare, if_pos hgate]
    split
    next hl => exact ⟨e, he, rfl⟩
    next entry hl =>
      by_cases hv : 1 ≤ (buildVari d.taxis.length entry.bidders).length
      · simp only [if_pos hv]
        split
        next v0 er htf => exact ⟨e, he, rfl⟩
        next v1 htf =>
          split
          next v0 er htd => exact ⟨e, he, rfl⟩
          next v2 htd =>
            by_cases htr : o2 = o ∧ dst2 = dst ∧ τ2 = τ
            · obtain ⟨h1, h2, h3⟩ := htr
              rw [h1, h2, h3] at he ⊢
              have hee : e = entry := Option.some.inj (he.symm.trans hl)
              refine ⟨(winnerLoop d.taxis o v2 entry).1, ?_, ?_⟩
              · exact lookupEntry_updateEntry_self _ _ _ _ _ _ hl
              · rw [winnerLoop_price d.taxis o v2 entry, hee]
            · refine ⟨e, ?_, rfl⟩
              have hother := lookupEntry_updateEntry_other d.fareBoard o dst τ
                (fun _ => (winnerLoop d.taxis o v2 entry).1) o2 dst2 τ2 htr
              rw [hother]
              exact he
      · simp only [if_neg hv]
        exact ⟨e, he, rfl⟩
  · simp only [allocateFare, if_neg hgate]
    exact ⟨e, he, rfl⟩

theorem tickStep_preserves_price (w : World) (rng : Rng) (key : Coord × Coord × Int)
    (d : Dispatcher) (o2 dst2 : Coord) (τ2 : Int) (e : FareEntry)
    (he : lookupEntry d.fareBoard o2 dst2 τ2 = some e) (hp : e.price ≠ 0) :
    ∃ e2, lookupEntry (tickStep w rng key d).1.fareBoard o2 dst2 τ2 = some e2 ∧
      e2.price = e.price := by
  unfold tickStep
  split
  next hl => exact ⟨e, he, rfl⟩
  next e0 hl =>
    by_cases hz : e0.price = 0
    · simp only [if_pos hz]
      split
      next er hcf => exact ⟨e, he, rfl⟩
      next p hcf =>
        by_cases htr : o2 = key.1 ∧ dst2 = key.2.1 ∧ τ2 = key.2.2
        · obtain ⟨h1, h2, h3⟩ := htr
          rw [h1, h2, h3] at he
          have hee : e = e0 := Option.some.inj (he.symm.trans hl)
          exact absurd (by rw [hee]; exact hz) hp
        · refine ⟨e, ?_, rfl⟩
          have hother := lookupEntry_updateEntry_other d.fareBoard key.1 key.2.1 key.2.2
            (fun e1 => { e1 with price := p }) o2 dst2 τ2 htr
          rw [hother]
          exact he
    · simp only [if_neg hz]
      by_cases hb : e0.taxi < 0 ∧ 0 < e0.bidders.length
      · simp only [if_pos hb]
        exact allocateFare_preserves_price w d key.1 key.2.1 key.2.2 o2 dst2 τ2 e he
      · simp only [if_neg hb]
        exact ⟨e, he, rfl⟩

theorem runKeys_preserves_price (w : World) (rng : Rng) :
    ∀ (keys : List (Coord × Coord × Int)) (d : Dispatcher) (o2 dst2 : Coord) (τ2 : Int)
      (e : FareEntry), lookupEntry d.fareBoard o2 dst2 τ2 = some e → e.price ≠ 0 →
      ∃ e2, lookupEntry (runKeys w rng keys d).1.fareBoard o2 dst2 τ2 = some e2 ∧
        e2.price = e.price := by
  intro keys
  induction keys with
  | nil =>
    intro d o2 dst2 τ2 e he hp
    exact ⟨e, he, rfl⟩
  | cons k rest ih =>
    intro d o2 dst2 τ2 e he hp
    obtain ⟨e2, he2, hpe⟩ := tickStep_preserves_price w rng k d o2 dst2 τ2 e he hp
    simp only [runKeys]
    cases her : (tickStep w rng k d).2.2 with
    | some er => exact ⟨e2, he2, hpe⟩
    | none =>
      have hp2 : e2.price ≠ 0 := by rw [hpe]; exact hp
      obtain ⟨e3, he3, hpe3⟩ := ih (tickStep w rng k d).1 o2 dst2 τ2 e2 he2 hp2
      exact ⟨e3, he3, hpe3.trans hpe⟩

theorem clockTick_preserves_price (w : World) (rng : Rng) (d : Dispatcher)
    (o2 dst2 : Coord) (τ2 : Int) (e : FareEntry)
    (he : lookupEntry d.fareBoard o2 dst2 τ2 = some e) (hp : e.price ≠ 0) :
    ∃ e2, lookupEntry (clockTick w rng d).1.fareBoard o2 dst2 τ2 = some e2 ∧
      e2.price = e.price := by
  unfold clockTick
  by_cases hw : w.wid = d.parentId
  · rw [if_pos hw]
    exact runKeys_preserves_price w rng (boardKeys d.fareBoard) d o2 dst2 τ2 e he hp
  · rw [if_neg hw]
    exact ⟨e, he, rfl⟩

/-- C7: pricing idempotence — a fare whose price field is nonzero keeps that
exact price under any number of control-loop ticks, and the pricing
function can never return the 0 sentinel (every successful price is
nonzero), so a price is written at most once. -/
theorem pricing_idempotent (w : World) (rng : Rng) (n : Nat) (d : Dispatcher)
    (o dst : Coord) (τ : Int) (e : FareEntry)
    (he : lookupEntry d.fareBoard o dst τ = some e) (hp : e.price ≠ 0) :
    (∃ e2, lookupEntry (clockTicks w rng n d).fareBoard o dst τ = some e2 ∧
       e2.price = e.price) ∧
    ∀ (ts : List Taxi) (fare : FareEntry) (r : Int),
      costFare w rng ts fare = Except.ok r → r ≠ 0 := by
  constructor
  · induction n generalizing d e with
    | zero => exact ⟨e, he, rfl⟩
    | succ m ih =>
      obtain ⟨e2, he2, hpe⟩ := clockTick_preserves_price w rng d o dst τ e he hp
      have hp2 : e2.price ≠ 0 := by rw [hpe]; exact hp
      obtain ⟨e3, he3, hpe3⟩ := ih (clockTick w rng d).1 e2 he2 hp2
      exact ⟨e3, he3, hpe3.trans hpe⟩
  · intro ts fare r h
    have := costFare_pos w rng ts fare r h
    omega

def farePriced : FareEntry := ⟨(1, 1), (2, 2), 0, 22, -1, []⟩
def dC7 : Dispatcher := ⟨0, 0, [tIdle, tIdle], [((1, 1), [((2, 2), [(0, farePriced)])])], 0⟩

/-- Witness for C7 over two concrete ticks of a priced board. -/
theorem pricing_idempotent_witness :
    lookupEntry dC7.fareBoard (1, 1) (2, 2) 0 = some farePriced ∧
    farePriced.price ≠ 0 ∧
    ((∃ e2, lookupEntry (clockTicks wLate rng1 2 dC7).fareBoard (1, 1) (2, 2) 0 = some e2 ∧
        e2.price = farePriced.price) ∧
     ∀ (ts : List Taxi) (fare : FareEntry) (r : Int),
       costFare wLate rng1 ts fare = Except.ok r → r ≠ 0) :=
  ⟨rfl, by decide,
   pricing_idempotent wLate rng1 2 dC7 (1, 1) (2, 2) 0 farePriced rfl (by decide)⟩

/-! ### Claim C9: board pruning invariant -/

/-- No empty intermediate levels: every origin maps to a nonempty
destination map and every destination to a nonempty time map. -/
def boardWF (b : Board) : Prop :=
  (∀ p ∈ b, p.2 ≠ ([] : DestMap)) ∧ ∀ p ∈ b, ∀ q ∈ p.2, q.2 ≠ ([] : TimeMap)

theorem boardWF_updateEntry (b : Board) (o dst : Coord) (τ : Int)
    (f : FareEntry → FareEntry) (h : boardWF b) : boardWF (updateEntry b o dst τ f) := by
  unfold updateEntry
  split
  next => exact h
  next dm hb =>
    split
    next => exact h
    next tm hd =>
      split
      next => exact h
      next e0 ht =>
        constructor
        · intro p hp
          rcases mem_dictSet _ _ _ p hp with h1 | h1
          · rw [h1]
            exact dictSet_ne_nil _ _ _
          · exact h.1 p h1
        · intro p hp q hq
          rcases mem_dictSet _ _ _ p hp with h1 | h1
          · rw [h1] at hq
            rcases mem_dictSet _ _ _ q hq with h2 | h2
            · rw [h2]
              exact dictSet_ne_nil _ _ _
            · exact h.2 (o, dm) (dictGet_some_mem _ _ _ hb) q h2
          · exact h.2 p h1 q hq

theorem boardWF_newFare (w : World) (d : Dispatcher) (o dst : Coord) (τ : Int)
    (h : boardWF d.fareBoard) : boardWF (newFare w d o dst τ).fareBoard := by
  unfold newFare
  by_cases hw : w.wid = d.parentId
  · rw [if_pos hw]
    constructor
    · intro p hp
      rcases mem_dictSet _ _ _ p hp with h1 | h1
      · rw [h1]
        exact dictSet_ne_nil _ _ _
      · exact h.1 p h1
    · intro p hp q hq
      rcases mem_dictSet _ _ _ p hp with h1 | h1
      · rw [h1] at hq
        rcases mem_dictSet _ _ _ q hq with h2 | h2
        · rw [h2]
          exact dictSet_ne_nil _ _ _
        · -- q belongs to the pre-existing destination map under o
          cases hb : dictGet d.fareBoard o with
          | none => rw [hb] at h2; simp at h2
          | some dm0 =>
            rw [hb] at h2
            exact h.2 (o, dm0) (dictGet_some_mem _ _ _ hb) q h2
      · exact h.2 p h1 q hq
  · rw [if_neg hw]
    exact h

theorem boardWF_cancelFare (w : World) (d : Dispatcher) (o dst : Coord) (τ : Int)
    (h : boardWF d.fareBoard) : boardWF (cancelFare w d o dst τ).1.fareBoard := by
  unfold cancelFare
  by_cases hw : w.wid = d.parentId
  · rw [if_pos hw]
    split
    next => exact h
    next dm hb =>
      split
      next => exact h
      next tm hd =>
        split
        next hτ =>
          -- calltime absent: the pruning checks still run
          by_cases htm : tm.isEmpty = true
          · simp only [if_pos htm]
            by_cases hdm2 : (dictDel dm dst).isEmpty = true
            · simp only [if_pos hdm2]
              exact ⟨fun p hp => h.1 p (mem_dictDel _ _ p hp),
                fun p hp => h.2 p (mem_dictDel _ _ p hp)⟩
            · simp only [if_neg hdm2]
              constructor
              · intro p hp
                rcases mem_dictSet _ _ _ p hp with h1 | h1
                · rw [h1]
                  exact fun hc => hdm2 (List.isEmpty_iff.mpr hc)
                · exact h.1 p h1
              · intro p hp q hq
                rcases mem_dictSet _ _ _ p hp with h1 | h1
                · rw [h1] at hq
                  exact h.2 (o, dm) (dictGet_some_mem _ _ _ hb) q (mem_dictDel _ _ q hq)
                · exact h.2 p h1 q hq
          · simp only [if_neg htm]
            by_cases hdm2 : dm.isEmpty = true
            · simp only [if_pos hdm2]
              exact ⟨fun p hp => h.1 p (mem_dictDel _ _ p hp),
                fun p hp => h.2 p (mem_dictDel _ _ p hp)⟩
            · simp only [if_neg hdm2]
              constructor
              · intro p hp
                rcases mem_dictSet _ _ _ p hp with h1 | h1
                · rw [h1]
                  exact fun hc => hdm2 (List.isEmpty_iff.mpr hc)
                · exact h.1 p h1
              · intro p hp q hq
                rcases mem_dictSet _ _ _ p hp with h1 | h1
                · rw [h1] at hq
                  exact h.2 (o, dm) (dictGet_some_mem _ _ _ hb) q hq
                · exact h.2 p h1 q hq
        next entry hτ =>
          split
          next => exact h
          next t hidx =>
            by_cases htm : (dictDel tm τ).isEmpty = true
            · simp only [if_pos htm]
              by_cases hdm2 : (dictDel dm dst).isEmpty = true
              · simp only [if_pos hdm2]
                exact ⟨fun p hp => h.1 p (mem_dictDel _ _ p hp),
                  fun p hp => h.2 p (mem_dictDel _ _ p hp)⟩
              · simp only [if_neg hdm2]
                constructor
                · intro p hp
                  rcases mem_dictSet _ _ _ p hp with h1 | h1
                  · rw [h1]
                    exact fun hc => hdm2 (List.isEmpty_iff.mpr hc)
                  · exact h.1 p h1
                · intro p hp q hq
                  rcases mem_dictSet _ _ _ p hp with h1 | h1
                  · rw [h1] at hq
                    exact h.2 (o, dm) (dictGet_some_mem _ _ _ hb) q (mem_dictDel _ _ q hq)
                  · exact h.2 p h1 q hq
            · simp only [if_neg htm]
              by_cases hdm2 : (dictSet dm dst (dictDel tm τ)).isEmpty = true
              · simp only [if_pos hdm2]
                exact ⟨fun p hp => h.1 p (mem_dictDel _ _ p hp),
                  fun p hp => h.2 p (mem_dictDel _ _ p hp)⟩
              · simp only [if_neg hdm2]
                constructor
                · intro p hp
                  rcases mem_dictSet _ _ _ p hp with h1 | h1
                  · rw [h1]
                    exact fun hc => hdm2 (List.isEmpty_iff.mpr hc)
                  · exact h.1 p h1
                · intro p hp q hq
                  rcases mem_dictSet _ _ _ p hp with h1 | h1
                  · rw [h1] at hq
                    rcases mem_dictSet _ _ _ q hq with h2 | h2
                    · rw [h2]
                      exact fun hc => htm (List.isEmpty_iff.mpr hc)
                    · exact h.2 (o, dm) (dictGet_some_mem _ _ _ hb) q h2
                  · exact h.2 p h1 q hq
  · rw [if_neg hw]
    exact h

theorem allocateFare_board_shape (w : World) (d : Dispatcher) (o dst : Coord) (τ : Int) :
    (allocateFare w d o dst τ).1.fareBoard = d.fareBoard ∨
    ∃ f, (allocateFare w d o dst τ).1.fareBoard = updateEntry d.fareBoard o dst τ f := by
  by_cases hgate : 3 < w.simTime - τ
  · simp only [allocateFare, if_pos hgate]
    split
    next hl => left; rfl
    next entry hl =>
      by_cases hv : 1 ≤ (buildVari d.taxis.length entry.bidders).length
      · simp only [if_pos hv]
        split
        next v0 er htf => left; rfl
        next v1 htf =>
          split
          next v0 er htd => left; rfl
          next v2 htd =>
            right
            exact ⟨fun _ => (winnerLoop d.taxis o v2 entry).1, rfl⟩
      · simp only [if_neg hv]
        left
        trivial
  · simp only [allocateFare, if_neg hgate]
    left
    trivial

theorem boardWF_allocateFare (w : World) (d : Dispatcher) (o dst : Coord) (τ : Int)
    (h : boardWF d.fareBoard) : boardWF (allocateFare w d o dst τ).1.fareBoard := by
  rcases allocateFare_board_shape w d o dst τ with hs | ⟨f, hs⟩
  · rw [hs]; exact h
  · rw [hs]; exact boardWF_updateEntry _ _ _ _ _ h

theorem tickStep_board_shape (w : World) (rng : Rng) (key : Coord × Coord × Int)
    (d : Dispatcher) :
    (tickStep w rng key d).1.fareBoard = d.fareBoard ∨
    ∃ o dst τ f, (tickStep w rng key d).1.fareBoard = updateEntry d.fareBoard o dst τ f := by
  unfold tickStep
  split
  next => left; rfl
  next e0 hl =>
    by_cases hz : e0.price = 0
    · simp only [if_pos hz]
      split
      next => left; rfl
      next p hcf =>
        right
        exact ⟨key.1, key.2.1, key.2.2, fun e1 => { e1 with price := p }, rfl⟩
    · simp only [if_neg hz]
      by_cases hb : e0.taxi < 0 ∧ 0 < e0.bidders.length
      · simp only [if_pos hb]
        rcases allocateFare_board_shape w d key.1 key.2.1 key.2.2 with hs | ⟨f, hs⟩
        · left; exact hs
        · right; exact ⟨key.1, key.2.1, key.2.2, f, hs⟩
      · simp only [if_neg hb]
        left
        trivial

theorem boardWF_tickStep (w : World) (rng : Rng) (key : Coord × Coord × Int)
    (d : Dispatcher) (h : boardWF d.fareBoard) :
    boardWF (tickStep w rng key d).1.fareBoard := by
  rcases tickStep_board_shape w rng key d with hs | ⟨o, dst, τ, f, hs⟩
  · rw [hs]; exact h
  · rw [hs]; exact boardWF_updateEntry _ _ _ _ _ h

theorem boardWF_runKeys (w : World) (rng : Rng) :
    ∀ (keys : List (Coord × Coord × Int)) (d : Dispatcher), boardWF d.fareBoard →
      boardWF (runKeys w rng keys d).1.fareBoard := by
  intro keys
  induction keys with
  | nil => intro d h; exact h
  | cons k rest ih =>
    intro d h
    simp only [runKeys]
    cases her : (tickStep w rng k d).2.2 with
    | some er => exact boardWF_tickStep w rng k d h
    | none => exact ih (tickStep w rng k d).1 (boardWF_tickStep w rng k d h)

theorem boardWF_clockTick (w : World) (rng : Rng) (d : Dispatcher)
    (h : boardWF d.fareBoard) : boardWF (clockTick w rng d).1.fareBoard := by
  unfold clockTick
  by_cases hw : w.wid = d.parentId
  · rw [if_pos hw]
    exact boardWF_runKeys w rng (boardKeys d.fareBoard) d h
  · rw [if_neg hw]
    exact h

theorem boardWF_fareBid (d : Dispatcher) (o : Coord) (t : Taxi)
    (h : boardWF d.fareBoard) : boardWF (fareBid d o t).fareBoard := by
  unfold fareBid
  by_cases ht : t ∈ d.taxis
  · rw [if_pos ht]
    split
    next => exact h
    next dm hdm =>
      split
      next => exact h
      next p hp => exact boardWF_updateEntry _ _ _ _ _ h
  · rw [if_neg ht]
    exact h

theorem boardWF_handover (w : World) (d : Dispatcher) (o dst : Coord) (τ : Int)
    (t : Taxi) (pr : Int) (h : boardWF d.fareBoard) :
    boardWF (handover w d o dst τ t pr).fareBoard := by
  unfold handover
  by_cases hw : w.wid = d.parentId
  · rw [if_pos hw]
    by_cases ht : t ∈ d.taxis
    · rw [if_pos ht]
      exact boardWF_updateEntry _ _ _ _ _ (boardWF_newFare _ _ _ _ _ h)
    · rw [if_neg ht]
      exact boardWF_updateEntry _ _ _ _ _ (boardWF_newFare _ _ _ _ _ h)
  · rw [if_neg hw]
    exact h

/-- The external events a dispatcher handles over its lifetime. -/
inductive DOp where
  | newF (w : World) (o dst : Coord) (τ : Int)
  | cancelF (w : World) (o dst : Coord) (τ : Int)
  | bid (o : Coord) (t : Taxi)
  | pay (w : World) (amt : Int)
  | tick (w : World) (rng : Rng)
  | addT (t : Taxi)
  | hand (w : World) (o dst : Coord) (τ : Int) (t : Taxi) (price : Int)

/-- State after handling one external event (on an exception the state as
mutated so far is kept, as the Python process would keep it). -/
def applyOp (d : Dispatcher) : DOp → Dispatcher
  | DOp.newF w o dst τ => newFare w d o dst τ
  | DOp.cancelF w o dst τ => (cancelFare w d o dst τ).1
  | DOp.bid o t => fareBid d o t
  | DOp.pay w amt => recvPayment w d amt
  | DOp.tick w rng => (clockTick w rng d).1
  | DOp.addT t => addTaxi d t
  | DOp.hand w o dst τ t pr => handover w d o dst τ t pr

def applyOps (d : Dispatcher) : List DOp → Dispatcher
  | [] => d
  | op :: rest => applyOps (applyOp d op) rest

theorem boardWF_applyOp (d : Dispatcher) (op : DOp) (h : boardWF d.fareBoard) :
    boardWF (applyOp d op).fareBoard := by
  cases op with
  | newF w o dst τ => exact boardWF_newFare w d o dst τ h
  | cancelF w o dst τ => exact boardWF_cancelFare w d o dst τ h
  | bid o t => exact boardWF_fareBid d o t h
  | pay w amt =>
    simp only [applyOp]
    unfold recvPayment
    by_cases hw : w.wid = d.parentId
    · rw [if_pos hw]; exact h
    · rw [if_neg hw]; exact h
  | tick w rng => exact boardWF_clockTick w rng d h
  | addT t =>
    simp only [applyOp]
    unfold addTaxi
    by_cases ht : t ∈ d.taxis
    · rw [if_pos ht]; exact h
    · rw [if_neg ht]; exact h
  | hand w o dst τ t pr => exact boardWF_handover w d o dst τ t pr h

/-- C9: every dispatcher state reachable from a fresh dispatcher through any
sequence of handled events — in particular the state after any cancelFare
call — has a fare board with no empty destination-level or origin-level
mappings, and every origin key present on the board has at least one live
fare record reachable under it. -/
theorem board_pruning_invariant (pid : Nat) (ts : List Taxi) (ops : List DOp) :
    boardWF (applyOps (initDispatcher pid ts) ops).fareBoard ∧
    ∀ o dm, dictGet (applyOps (initDispatcher pid ts) ops).fareBoard o = some dm →
      ∃ dst tm, (dst, tm) ∈ dm ∧ ∃ τ e, (τ, e) ∈ tm := by
  have hwf : ∀ (ops2 : List DOp) (d : Dispatcher), boardWF d.fareBoard →
      boardWF (applyOps d ops2).fareBoard := by
    intro ops2
    induction ops2 with
    | nil => intro d h; exact h
    | cons op rest ih => intro d h; exact ih (applyOp d op) (boardWF_applyOp d op h)
  have h0 : boardWF (initDispatcher pid ts).fareBoard := by
    constructor
    · intro p hp; simp [initDispatcher] at hp
    · intro p hp; simp [initDispatcher] at hp
  have hw := hwf ops (initDispatcher pid ts) h0
  refine ⟨hw, ?_⟩
  intro o dm hdm
  have hmem := dictGet_some_mem _ _ _ hdm
  have hne : dm ≠ [] := hw.1 (o, dm) hmem
  obtain ⟨q, dmrest, hdm2⟩ := List.exists_cons_of_ne_nil hne
  have hq : q ∈ dm := by rw [hdm2]; exact List.mem_cons_self _ _
  have hqne : q.2 ≠ [] := hw.2 (o, dm) hmem q hq
  obtain ⟨r, tmrest, htm⟩ := List.exists_cons_of_ne_nil hqne
  refine ⟨q.1, q.2, hq, r.1, r.2, ?_⟩
  rw [htm]
  exact List.mem_cons_self _ _

/-- Witness for C9 on a concrete event sequence ending in a cancellation. -/
theorem board_pruning_invariant_witness :
    boardWF (applyOps (initDispatcher 0 [tIdle, tBusy])
      [DOp.newF wLate (1, 1) (2, 2) 0, DOp.newF wLate (5, 5) (2, 2) 1,
       DOp.cancelF wLate (1, 1) (2, 2) 0]).fareBoard ∧
    ∀ o dm, dictGet (applyOps (initDispatcher 0 [tIdle, tBusy])
        [DOp.newF wLate (1, 1) (2, 2) 0, DOp.newF wLate (5, 5) (2, 2) 1,
         DOp.cancelF wLate (1, 1) (2, 2) 0]).fareBoard o = some dm →
      ∃ dst tm, (dst, tm) ∈ dm ∧ ∃ τ e, (τ, e) ∈ tm :=
  board_pruning_invariant 0 [tIdle, tBusy]
    [DOp.newF wLate (1, 1) (2, 2) 0, DOp.newF wLate (5, 5) (2, 2) 1,
     DOp.cancelF wLate (1, 1) (2, 2) 0]

/-! ### Claims C3, C4, C5: the allocation pipeline -/

/-- The initial domain value ["allocate", "no"] of every candidate. -/
def flagsA : List String := ["allocate", "no"]

/-- The domain value after elimination. -/
def flagsN : List String := ["no"]

theorem mem_flagsA : "allocate" ∈ flagsA := by decide

theorem not_mem_flagsN : "allocate" ∉ flagsN := by decide

theorem removeFirst_flagsA : removeFirstStr "allocate" flagsA = flagsN := by rfl

/-- Whether the registry unit at a bidder index has no passenger. -/
def isFreeIdx (reg : List Taxi) (i : Nat) : Bool :=
  match reg.get? i with
  | some t => !t.passenger
  | none => false

/-- The bidders whose unit is idle, in bidder-list order. -/
def freeBidders (reg : List Taxi) (bs : List Nat) : List Nat :=
  bs.filter (isFreeIdx reg)

/-- The candidates surviving the availability filter: the idle bidders when
any exist, otherwise all bidders. -/
def survivors (reg : List Taxi) (bs : List Nat) : List Nat :=
  if freeBidders reg bs = [] then bs else freeBidders reg bs

/-- The detour cost of a bidder as described by the spec: for a busy unit,
travel time from its current location to its current drop-off (the last
node of its path) plus travel time from that drop-off to the new fare's
destination; for an idle unit, travel time from its current location to the
new destination. -/
def bidderCost (w : World) (reg : List Taxi) (dest : Coord) (i : Nat) : Int :=
  match reg.get? i with
  | none => 0
  | some t =>
    if t.passenger then
      match t.path.getLast? with
      | none => 0
      | some dropoff =>
        w.travelTime t.currentLocation dropoff + w.travelTime dropoff dest
    else w.travelTime t.currentLocation dest

/-- Whether a candidate still holds "allocate" in its domain. -/
def hasAlloc (v : List (Nat × List String)) (i : Nat) : Bool :=
  match dictGet v i with
  | some fs => decide ("allocate" ∈ fs)
  | none => false

theorem buildVari_go (n : Nat) :
    ∀ (bs : List Nat) (acc : List (Nat × List String)) (i : Nat),
      dictGet (bs.foldl (fun v j => if j < n then dictSet v j ["allocate", "no"] else v) acc) i =
        if i ∈ bs ∧ i < n then some flagsA else dictGet acc i := by
  intro bs
  induction bs with
  | nil =>
    intro acc i
    simp
  | cons b rest ih =>
    intro acc i
    simp only [List.foldl_cons]
    rw [ih]
    by_cases hb : b < n
    · rw [if_pos hb]
      by_cases hir : i ∈ rest ∧ i < n
      · rw [if_pos hir, if_pos ⟨List.mem_cons_of_mem _ hir.1, hir.2⟩]
      · rw [if_neg hir]
        by_cases hib : i = b
        · subst hib
          rw [dictGet_set_self, if_pos ⟨List.mem_cons_self _ _, hb⟩]
          rfl
        · rw [dictGet_set_ne _ _ _ _ hib]
          have : ¬(i ∈ b :: rest ∧ i < n) := by
            intro ⟨hm, hn⟩
            rcases List.mem_cons.mp hm with h | h
            · exact hib h
            · exact hir ⟨h, hn⟩
          rw [if_neg this]
    · rw [if_neg hb]
      by_cases hir : i ∈ rest ∧ i < n
      · rw [if_pos hir, if_pos ⟨List.mem_cons_of_mem _ hir.1, hir.2⟩]
      · rw [if_neg hir]
        have : ¬(i ∈ b :: rest ∧ i < n) := by
          intro ⟨hm, hn⟩
          rcases List.mem_cons.mp hm with h | h
          · exact hb (h ▸ hn)
          · exact hir ⟨h, hn⟩
        rw [if_neg this]

theorem buildVari_get (n : Nat) (bs : List Nat) (i : Nat) :
    dictGet (buildVari n bs) i = if i ∈ bs ∧ i < n then some flagsA else none := by
  unfold buildVari
  rw [buildVari_go]
  rfl

theorem buildVari_keysNodup (n : Nat) (bs : List Nat) : keysNodup (buildVari n bs) := by
  unfold buildVari
  suffices h : ∀ acc : List (Nat × List String), keysNodup acc →
      keysNodup (bs.foldl (fun v j => if j < n then dictSet v j ["allocate", "no"] else v) acc) by
    exact h [] keysNodup_nil
  induction bs with
  | nil => intro acc h; exact h
  | cons b rest ih =>
    intro acc h
    simp only [List.foldl_cons]
    apply ih
    by_cases hb : b < n
    · rw [if_pos hb]; exact keysNodup_dictSet _ _ _ h
    · rw [if_neg hb]; exact h

theorem buildVari_mem (n : Nat) :
    ∀ (bs : List Nat) (acc : List (Nat × List String)) (p : Nat × List String),
      p ∈ bs.foldl (fun v j => if j < n then dictSet v j ["allocate", "no"] else v) acc →
      p.1 ∈ bs ∨ p ∈ acc := by
  intro bs
  induction bs with
  | nil =>
    intro acc p hp
    right
    simpa using hp
  | cons b rest ih =>
    intro acc p hp
    simp only [List.foldl_cons] at hp
    rcases ih _ p hp with h | h
    · left; exact List.mem_cons_of_mem _ h
    · by_cases hb : b < n
      · rw [if_pos hb] at h
        rcases mem_dictSet _ _ _ p h with h1 | h1
        · left
          rw [h1]
          exact List.mem_cons_self _ _
        · right; exact h1
      · rw [if_neg hb] at h
        right
        exact h

theorem buildFree_ok (reg : List Taxi) :
    ∀ bs : List Nat, (∀ i ∈ bs, i < reg.length) →
      buildFree reg bs = Except.ok (freeBidders reg bs) := by
  intro bs
  induction bs with
  | nil => intro _; rfl
  | cons b rest ih =>
    intro hr
    have hb : b < reg.length := hr b (List.mem_cons_self _ _)
    obtain ⟨t, ht⟩ : ∃ t, reg.get? b = some t := ⟨_, List.get?_eq_get hb⟩
    have hrest := ih (fun i hi => hr i (List.mem_cons_of_mem _ hi))
    have ht2 : reg[b]? = some t := by rw [← List.get?_eq_getElem?]; exact ht
    simp only [buildFree, ht, hrest, freeBidders, List.filter_cons]
    cases hp : t.passenger
    · simp [isFreeIdx, ht, ht2, hp, freeBidders]
    · simp [isFreeIdx, ht, ht2, hp, freeBidders]

theorem removeLoop_keys (free : List Nat) :
    ∀ (bs : List Nat) (v : List (Nat × List String)),
      ((removeLoop free bs v).1).map Prod.fst = v.map Prod.fst := by
  intro bs
  induction bs with
  | nil => intro v; rfl
  | cons i rest ih =>
    intro v
    by_cases hf : i ∈ free
    · simp only [removeLoop, if_pos hf]
      exact ih v
    · simp only [removeLoop, if_neg hf]
      split
      next hv => rfl
      next flags hv =>
        by_cases ha : "allocate" ∈ flags
        · rw [if_pos ha]
          rw [ih]
          exact dictSet_keys_of_get_some _ _ _ _ hv
        · rw [if_neg ha]

theorem removeLoop_char (free : List Nat) :
    ∀ (bs : List Nat) (v : List (Nat × List String)),
      bs.Nodup →
      (∀ i ∈ bs, i ∉ free → dictGet v i = some flagsA) →
      (removeLoop free bs v).2 = none ∧
      ∀ j, dictGet (removeLoop free bs v).1 j =
        if j ∈ bs ∧ j ∉ free then some flagsN else dictGet v j := by
  intro bs
  induction bs with
  | nil =>
    intro v _ _
    exact ⟨rfl, fun j => by simp [removeLoop]⟩
  | cons i rest ih =>
    intro v hn hA
    have hn2 : rest.Nodup := (List.nodup_cons.mp hn).2
    have hni : i ∉ rest := (List.nodup_cons.mp hn).1
    by_cases hf : i ∈ free
    · simp only [removeLoop, if_pos hf]
      obtain ⟨hne, hch⟩ := ih v hn2 (fun j hj hjf => hA j (List.mem_cons_of_mem _ hj) hjf)
      refine ⟨hne, fun j => ?_⟩
      rw [hch j]
      by_cases hjr : j ∈ rest ∧ j ∉ free
      · rw [if_pos hjr, if_pos ⟨List.mem_cons_of_mem _ hjr.1, hjr.2⟩]
      · rw [if_neg hjr]
        have : ¬(j ∈ i :: rest ∧ j ∉ free) := by
          intro ⟨hm, hjf⟩
          rcases List.mem_cons.mp hm with h | h
          · exact hjf (h ▸ hf)
          · exact hjr ⟨h, hjf⟩
        rw [if_neg this]
    · have hvi : dictGet v i = some flagsA := hA i (List.mem_cons_self _ _) hf
      simp only [removeLoop, if_neg hf, hvi, if_pos mem_flagsA, removeFirst_flagsA]
      have hA2 : ∀ j ∈ rest, j ∉ free → dictGet (dictSet v i flagsN) j = some flagsA := by
        intro j hj hjf
        have hji : j ≠ i := fun hc => hni (hc ▸ hj)
        rw [dictGet_set_ne _ _ _ _ hji]
        exact hA j (List.mem_cons_of_mem _ hj) hjf
      obtain ⟨hne, hch⟩ := ih (dictSet v i flagsN) hn2 hA2
      refine ⟨hne, fun j => ?_⟩
      rw [hch j]
      by_cases hji : j = i
      · subst hji
        have hjr : ¬(j ∈ rest ∧ j ∉ free) := fun hc => hni hc.1
        rw [if_neg hjr, dictGet_set_self,
          if_pos ⟨List.mem_cons_self _ _, hf⟩]
      · rw [dictGet_set_ne _ _ _ _ hji]
        by_cases hjr : j ∈ rest ∧ j ∉ free
        · rw [if_pos hjr, if_pos ⟨List.mem_cons_of_mem _ hjr.1, hjr.2⟩]
        · rw [if_neg hjr]
          have : ¬(j ∈ i :: rest ∧ j ∉ free) := by
            intro ⟨hm, hjf⟩
            rcases List.mem_cons.mp hm with h | h
            · exact hji h
            · exact hjr ⟨h, hjf⟩
          rw [if_neg this]

theorem testFree_char (reg : List Taxi) (bs : List Nat)
    (hr : ∀ i ∈ bs, i < reg.length) (hn : bs.Nodup) :
    (testFree reg bs (buildVari reg.length bs)).2 = none ∧
    (∀ j, dictGet (testFree reg bs (buildVari reg.length bs)).1 j =
      if j ∈ bs then
        (if freeBidders reg bs = [] ∨ j ∈ freeBidders reg bs
         then some flagsA else some flagsN)
      else none) ∧
    ((testFree reg bs (buildVari reg.length bs)).1).map Prod.fst =
      (buildVari reg.length bs).map Prod.fst := by
  unfold testFree
  rw [buildFree_ok reg bs hr]
  by_cases hfree : freeBidders reg bs = []
  · have hlen : ¬1 ≤ (freeBidders reg bs).length := by
      rw [hfree]
      simp
    simp only [hlen, if_false]
    refine ⟨by trivial, fun j => ?_, by trivial⟩
    rw [buildVari_get]
    by_cases hj : j ∈ bs
    · rw [if_pos ⟨hj, hr j hj⟩, if_pos hj, if_pos (Or.inl hfree)]
    · rw [if_neg (fun hc => hj hc.1), if_neg hj]
  · have hlen : 1 ≤ (freeBidders reg bs).length := by
      cases hfb : freeBidders reg bs with
      | nil => exact absurd hfb hfree
      | cons a l => simp
    simp only [hlen, if_true]
    have hA : ∀ i ∈ bs, i ∉ freeBidders reg bs →
        dictGet (buildVari reg.length bs) i = some flagsA := by
      intro i hi _
      rw [buildVari_get, if_pos ⟨hi, hr i hi⟩]
    obtain ⟨hne, hch⟩ := removeLoop_char (freeBidders reg bs) bs
      (buildVari reg.length bs) hn hA
    refine ⟨hne, fun j => ?_, removeLoop_keys _ _ _⟩
    rw [hch j]
    by_cases hj : j ∈ bs
    · by_cases hjf : j ∈ freeBidders reg bs
      · have : ¬(j ∈ bs ∧ j ∉ freeBidders reg bs) := fun hc => hc.2 hjf
        rw [if_neg this, buildVari_get, if_pos ⟨hj, hr j hj⟩, if_pos hj,
          if_pos (Or.inr hjf)]
      · rw [if_pos ⟨hj, hjf⟩, if_pos hj, if_neg ?_]
        intro hc
        rcases hc with h | h
        · exact hfree h
        · exact hjf h
    · have : ¬(j ∈ bs ∧ j ∉ freeBidders reg bs) := fun hc => hj hc.1
      rw [if_neg this, buildVari_get, if_neg (fun hc => hj hc.1), if_neg hj]

theorem hasAlloc_of_A (v : List (Nat × List String)) (i : Nat)
    (h : dictGet v i = some flagsA) : hasAlloc v i = true := by
  simp [hasAlloc, h, mem_flagsA]

theorem hasAlloc_of_N (v : List (Nat × List String)) (i : Nat)
    (h : dictGet v i = some flagsN) : hasAlloc v i = false := by
  simp [hasAlloc, h, not_mem_flagsN]

theorem distLoop_char (w : World) (reg : List Taxi) (dest : Coord)
    (vari : List (Nat × List String)) :
    ∀ (bs : List Nat) (acc : List (Nat × Int)),
      bs.Nodup →
      (∀ i ∈ bs, dictGet vari i = some flagsA ∨ dictGet vari i = some flagsN) →
      (∀ i ∈ bs, dictGet vari i = some flagsA →
        ∃ t, reg.get? i = some t ∧ (t.passenger = true → t.path ≠ [])) →
      (∀ i ∈ bs, dictGet acc i = none) →
      distLoop w reg dest vari bs acc = Except.ok
        (acc ++ (bs.filter (fun i => hasAlloc vari i)).map
          (fun i => (i, bidderCost w reg dest i))) := by
  intro bs
  induction bs with
  | nil =>
    intro acc _ _ _ _
    simp [distLoop]
  | cons i rest ih =>
    intro acc hn hAN hT hfresh
    have hn2 : rest.Nodup := (List.nodup_cons.mp hn).2
    have hni : i ∉ rest := (List.nodup_cons.mp hn).1
    have hANr : ∀ j ∈ rest, dictGet vari j = some flagsA ∨ dictGet vari j = some flagsN :=
      fun j hj => hAN j (List.mem_cons_of_mem _ hj)
    have hTr : ∀ j ∈ rest, dictGet vari j = some flagsA →
        ∃ t, reg.get? j = some t ∧ (t.passenger = true → t.path ≠ []) :=
      fun j hj => hT j (List.mem_cons_of_mem _ hj)
    rcases hAN i (List.mem_cons_self _ _) with hvi | hvi
    · obtain ⟨t, hgt, hpath⟩ := hT i (List.mem_cons_self _ _) hvi
      have hgt2 : reg[i]? = some t := by rw [← List.get?_eq_getElem?]; exact hgt
      have hhA := hasAlloc_of_A vari i hvi
      have happ := dictSet_append_of_get_none acc i
      cases hp : t.passenger with
      | true =>
        have hpne : t.path ≠ [] := hpath hp
        obtain ⟨dropoff, hdrop⟩ : ∃ x, t.path.getLast? = some x := by
          cases hg : t.path.getLast? with
          | none => exact absurd (List.getLast?_eq_none_iff.mp hg) hpne
          | some x => exact ⟨x, rfl⟩
        have hcost : bidderCost w reg dest i =
            w.travelTime t.currentLocation dropoff + w.travelTime dropoff dest := by
          simp [bidderCost, hgt, hgt2, hp, hdrop]
        have hstep : distLoop w reg dest vari (i :: rest) acc =
            distLoop w reg dest vari rest
              (dictSet acc i (w.travelTime t.currentLocation dropoff +
                w.travelTime dropoff dest)) := by
          simp [distLoop, hvi, mem_flagsA, hgt, hgt2, hp, hdrop]
        have hfresh2 : ∀ j ∈ rest, dictGet (dictSet acc i
            (w.travelTime t.currentLocation dropoff + w.travelTime dropoff dest)) j =
            none := by
          intro j hj
          have hji : j ≠ i := fun hc => hni (hc ▸ hj)
          rw [dictGet_set_ne _ _ _ _ hji]
          exact hfresh j (List.mem_cons_of_mem _ hj)
        rw [hstep, ih _ hn2 hANr hTr hfresh2,
          happ _ (hfresh i (List.mem_cons_self _ _))]
        simp [List.filter_cons, hhA, hcost]
      | false =>
        have hcost : bidderCost w reg dest i =
            w.travelTime t.currentLocation dest := by
          simp [bidderCost, hgt, hgt2, hp]
        have hstep : distLoop w reg dest vari (i :: rest) acc =
            distLoop w reg dest vari rest
              (dictSet acc i (w.travelTime t.currentLocation dest)) := by
          simp [distLoop, hvi, mem_flagsA, hgt, hgt2, hp]
        have hfresh2 : ∀ j ∈ rest,
            dictGet (dictSet acc i (w.travelTime t.currentLocation dest)) j = none := by
          intro j hj
          have hji : j ≠ i := fun hc => hni (hc ▸ hj)
          rw [dictGet_set_ne _ _ _ _ hji]
          exact hfresh j (List.mem_cons_of_mem _ hj)
        rw [hstep, ih _ hn2 hANr hTr hfresh2,
          happ _ (hfresh i (List.mem_cons_self _ _))]
        simp [List.filter_cons, hhA, hcost]
    · have hhA := hasAlloc_of_N vari i hvi
      have hstep : distLoop w reg dest vari (i :: rest) acc =
          distLoop w reg dest vari rest acc := by
        simp [distLoop, hvi, not_mem_flagsN]
      rw [hstep, ih _ hn2 hANr hTr (fun j hj => hfresh j (List.mem_cons_of_mem _ hj))]
      simp [List.filter_cons, hhA]

theorem minLoopGo_char (f : Nat → Int) :
    ∀ (S : List Nat) (k0 : Nat),
      ∃ k S1 S2, minLoopGo (k0, f k0) (S.map (fun i => (i, f i))) = (k, f k) ∧
        k0 :: S = S1 ++ k :: S2 ∧
        (∀ j ∈ S1, f k < f j) ∧ (∀ j ∈ S2, f k ≤ f j) := by
  intro S
  induction S with
  | nil =>
    intro k0
    exact ⟨k0, [], [], rfl, rfl, by simp, by simp⟩
  | cons i S2 ih =>
    intro k0
    by_cases hlt : f i < f k0
    · obtain ⟨k, T1, T2, hmin, hdec, h1, h2⟩ := ih i
      have hki : f k ≤ f i := by
        cases T1 with
        | nil =>
          have : i = k := by
            have := hdec
            simp only [List.nil_append] at this
            exact (List.cons.injEq _ _ _ _).mp this |>.1
          rw [this]
        | cons a T =>
          have ha : a = i := by
            have := hdec
            simp only [List.cons_append] at this
            exact ((List.cons.injEq _ _ _ _).mp this).1.symm
          have := h1 a (List.mem_cons_self _ _)
          rw [ha] at this
          exact le_of_lt this
      refine ⟨k, k0 :: T1, T2, ?_, ?_, ?_, h2⟩
      · simp only [List.map_cons, minLoopGo]
        rw [if_pos hlt]
        exact hmin
      · rw [List.cons_append, ← hdec]
      · intro j hj
        rcases List.mem_cons.mp hj with h | h
        · rw [h]
          exact lt_of_le_of_lt hki hlt
        · exact h1 j h
    · obtain ⟨k, T1, T2, hmin, hdec, h1, h2⟩ := ih k0
      cases T1 with
      | nil =>
        simp only [List.nil_append] at hdec
        have hk : k0 = k := ((List.cons.injEq _ _ _ _).mp hdec).1
        have hS : S2 = T2 := ((List.cons.injEq _ _ _ _).mp hdec).2
        refine ⟨k, [], i :: T2, ?_, ?_, by simp, ?_⟩
        · simp only [List.map_cons, minLoopGo]
          rw [if_neg hlt]
          exact hmin
        · rw [List.nil_append, ← hk, ← hS]
        · intro j hj
          rcases List.mem_cons.mp hj with h | h
          · rw [h, ← hk]
            exact le_of_not_lt hlt
          · exact h2 j h
      | cons a T =>
        simp only [List.cons_append] at hdec
        have ha : a = k0 := ((List.cons.injEq _ _ _ _).mp hdec).1.symm
        have hS : S2 = T ++ k :: T2 := ((List.cons.injEq _ _ _ _).mp hdec).2
        have hkk0 : f k < f k0 := by
          have := h1 a (List.mem_cons_self _ _)
          rw [ha] at this
          exact this
        refine ⟨k, k0 :: i :: T, T2, ?_, ?_, ?_, h2⟩
        · simp only [List.map_cons, minLoopGo]
          rw [if_neg hlt]
          exact hmin
        · rw [hS]
          simp
        · intro j hj
          rcases List.mem_cons.mp hj with h | h
          · rw [h]
            exact hkk0
          · rcases List.mem_cons.mp h with h3 | h3
            · rw [h3]
              exact lt_of_lt_of_le hkk0 (le_of_not_lt hlt)
            · exact h1 j (ha ▸ List.mem_cons_of_mem _ h3)

theorem stripLoop_keys (lo : Option Nat) :
    ∀ (bs : List Nat) (v : List (Nat × List String)),
      ((stripLoop lo bs v).1).map Prod.fst = v.map Prod.fst := by
  intro bs
  induction bs with
  | nil => intro v; rfl
  | cons i rest ih =>
    intro v
    cases lo with
    | none => rfl
    | some k =>
      by_cases hik : i = k
      · simp only [stripLoop, if_pos hik]
        exact ih v
      · simp only [stripLoop, if_neg hik]
        split
        next hv => rfl
        next flags hv =>
          by_cases ha : "allocate" ∈ flags
          · rw [if_pos ha, ih]
            exact dictSet_keys_of_get_some _ _ _ _ hv
          · rw [if_neg ha]
            exact ih v

theorem stripLoop_char (lo : Nat) :
    ∀ (bs : List Nat) (v : List (Nat × List String)),
      (∀ i ∈ bs, i ≠ lo → dictGet v i = some flagsA ∨ dictGet v i = some flagsN) →
      (stripLoop (some lo) bs v).2 = none ∧
      (∀ j, j ≠ lo → dictGet (stripLoop (some lo) bs v).1 j =
         if j ∈ bs then some flagsN else dictGet v j) ∧
      dictGet (stripLoop (some lo) bs v).1 lo = dictGet v lo := by
  intro bs
  induction bs with
  | nil =>
    intro v _
    exact ⟨rfl, fun j _ => by simp [stripLoop], rfl⟩
  | cons i rest ih =>
    intro v hAN
    have hANr : ∀ j ∈ rest, j ≠ lo →
        dictGet v j = some flagsA ∨ dictGet v j = some flagsN :=
      fun j hj => hAN j (List.mem_cons_of_mem _ hj)
    by_cases hik : i = lo
    · simp only [stripLoop, if_pos hik]
      obtain ⟨hne, hch, hlo⟩ := ih v hANr
      refine ⟨hne, fun j hj => ?_, hlo⟩
      rw [hch j hj]
      have hji : j ≠ i := fun hc => hj (hc ▸ hik)
      by_cases hjr : j ∈ rest
      · rw [if_pos hjr, if_pos (List.mem_cons_of_mem _ hjr)]
      · rw [if_neg hjr, if_neg ?_]
        intro hc
        rcases List.mem_cons.mp hc with h | h
        · exact hji h
        · exact hjr h
    · rcases hAN i (List.mem_cons_self _ _) hik with hvi | hvi
      · simp only [stripLoop, if_neg hik, hvi, if_pos mem_flagsA, removeFirst_flagsA]
        have hANr2 : ∀ j ∈ rest, j ≠ lo →
            dictGet (dictSet v i flagsN) j = some flagsA ∨
            dictGet (dictSet v i flagsN) j = some flagsN := by
          intro j hj hjlo
          by_cases hji : j = i
          · subst hji
            rw [dictGet_set_self]
            right
            rfl
          · rw [dictGet_set_ne _ _ _ _ hji]
            exact hANr j hj hjlo
        obtain ⟨hne, hch, hlo⟩ := ih (dictSet v i flagsN) hANr2
        refine ⟨hne, fun j hj => ?_, ?_⟩
        · rw [hch j hj]
          by_cases hjr : j ∈ rest
          · rw [if_pos hjr, if_pos (List.mem_cons_of_mem _ hjr)]
          · rw [if_neg hjr]
            by_cases hji : j = i
            · subst hji
              rw [dictGet_set_self, if_pos (List.mem_cons_self _ _)]
            · rw [dictGet_set_ne _ _ _ _ hji, if_neg ?_]
              intro hc
              rcases List.mem_cons.mp hc with h | h
              · exact hji h
              · exact hjr h
        · rw [hlo, dictGet_set_ne _ _ _ _ (fun hc => hik hc.symm)]
      · simp only [stripLoop, if_neg hik, hvi, if_neg not_mem_flagsN]
        obtain ⟨hne, hch, hlo⟩ := ih v hANr
        refine ⟨hne, fun j hj => ?_, hlo⟩
        rw [hch j hj]
        by_cases hjr : j ∈ rest
        · rw [if_pos hjr, if_pos (List.mem_cons_of_mem _ hjr)]
        · rw [if_neg hjr]
          by_cases hji : j = i
          · subst hji
            rw [if_pos (List.mem_cons_self _ _), hvi]
          · rw [if_neg ?_]
            intro hc
            rcases List.mem_cons.mp hc with h | h
            · exact hji h
            · exact hjr h

theorem winnerLoop_none (reg : List Taxi) (origin : Coord) :
    ∀ (l : List (Nat × List String)) (e : FareEntry),
      (∀ p ∈ l, "allocate" ∉ p.2) →
      winnerLoop reg origin l e = (e, [], none) := by
  intro l
  induction l with
  | nil => intro e _; rfl
  | cons p rest ih =>
    intro e hno
    obtain ⟨k, flags⟩ := p
    have hnk : "allocate" ∉ flags := hno (k, flags) (List.mem_cons_self _ _)
    simp only [winnerLoop, if_neg hnk]
    exact ih e (fun q hq => hno q (List.mem_cons_of_mem _ hq))

theorem winnerLoop_single (reg : List Taxi) (origin : Coord) (lo : Nat) (t : Taxi)
    (hget : reg.get? lo = some t) :
    ∀ (l : List (Nat × List String)) (e : FareEntry),
      (∀ p ∈ l, ("allocate" ∈ p.2 ↔ p.1 = lo)) →
      (l.map Prod.fst).Nodup →
      lo ∈ l.map Prod.fst →
      winnerLoop reg origin l e =
        ({ e with taxi := (lo : Int) }, [Event.allocateFare origin t], none) := by
  intro l
  induction l with
  | nil =>
    intro e _ _ hmem
    simp at hmem
  | cons p rest ih =>
    intro e hiff hnod hmem
    obtain ⟨k, flags⟩ := p
    simp only [List.map_cons, List.nodup_cons] at hnod
    by_cases hk : k = lo
    · subst hk
      have hin : "allocate" ∈ flags := (hiff (k, flags) (List.mem_cons_self _ _)).mpr rfl
      have hnorest : ∀ q ∈ rest, "allocate" ∉ q.2 := by
        intro q hq hall
        have hq1 := (hiff q (List.mem_cons_of_mem _ hq)).mp hall
        exact hnod.1 (hq1 ▸ List.mem_map.mpr ⟨q, hq, rfl⟩)
      simp only [winnerLoop, if_pos hin, hget,
        winnerLoop_none reg origin rest _ hnorest]
    · have hnin : "allocate" ∉ flags :=
        fun hc => hk ((hiff (k, flags) (List.mem_cons_self _ _)).mp hc)
      simp only [winnerLoop, if_neg hnin]
      refine ih e (fun q hq => hiff q (List.mem_cons_of_mem _ hq)) hnod.2 ?_
      simp only [List.map_cons, List.mem_cons] at hmem
      rcases hmem with h | h
      · exact absurd h.symm hk
      · exact h

theorem allocate_master (w : World) (d : Dispatcher) (o dst : Coord) (τ : Int)
    (entry : FareEntry)
    (hgate : 3 < w.simTime - τ)
    (hentry : lookupEntry d.fareBoard o dst τ = some entry)
    (hne : entry.bidders ≠ [])
    (hrange : ∀ i ∈ entry.bidders, i < d.taxis.length)
    (hnodup : entry.bidders.Nodup)
    (hpaths : ∀ i ∈ entry.bidders, ∀ t, d.taxis.get? i = some t →
       t.passenger = true → t.path ≠ []) :
    ∃ k t S1 S2,
      d.taxis.get? k = some t ∧
      survivors d.taxis entry.bidders = S1 ++ k :: S2 ∧
      (∀ j ∈ S1, bidderCost w d.taxis dst k < bidderCost w d.taxis dst j) ∧
      (∀ j ∈ S2, bidderCost w d.taxis dst k ≤ bidderCost w d.taxis dst j) ∧
      allocateFare w d o dst τ =
        ({ d with fareBoard := updateEntry d.fareBoard o dst τ (fun _ => { entry with taxi := (k : Int) }) },
         [Event.allocateFare o t], none) := by
  obtain ⟨i0, bs0, hbs⟩ := List.exists_cons_of_ne_nil hne
  have hi0 : i0 ∈ entry.bidders := by rw [hbs]; exact List.mem_cons_self _ _
  have hv0i0 : dictGet (buildVari d.taxis.length entry.bidders) i0 = some flagsA := by
    rw [buildVari_get, if_pos ⟨hi0, hrange i0 hi0⟩]
  have hv1 : 1 ≤ (buildVari d.taxis.length entry.bidders).length := by
    cases hv : buildVari d.taxis.length entry.bidders with
    | nil => rw [hv] at hv0i0; simp [dictGet] at hv0i0
    | cons a l => simp
  obtain ⟨htf2, htfch, htfkeys⟩ := testFree_char d.taxis entry.bidders hrange hnodup
  have hfilter : entry.bidders.filter
      (fun i => hasAlloc (testFree d.taxis entry.bidders
        (buildVari d.taxis.length entry.bidders)).1 i) =
      survivors d.taxis entry.bidders := by
    by_cases hfree : freeBidders d.taxis entry.bidders = []
    · rw [survivors, if_pos hfree]
      apply List.filter_eq_self.mpr
      intro j hj
      exact hasAlloc_of_A _ _ (by rw [htfch j, if_pos hj, if_pos (Or.inl hfree)])
    · rw [survivors, if_neg hfree]
      have hcong : ∀ j ∈ entry.bidders,
          hasAlloc (testFree d.taxis entry.bidders
            (buildVari d.taxis.length entry.bidders)).1 j = isFreeIdx d.taxis j := by
        intro j hj
        by_cases hjf : j ∈ freeBidders d.taxis entry.bidders
        · rw [hasAlloc_of_A _ _ (by rw [htfch j, if_pos hj, if_pos (Or.inr hjf)])]
          exact ((List.mem_filter.mp hjf).2).symm
        · rw [hasAlloc_of_N _ _ ?hN]
          case hN =>
            rw [htfch j, if_pos hj, if_neg ?_]
            intro hc
            rcases hc with h | h
            · exact hfree h
            · exact hjf h
          cases hfi : isFreeIdx d.taxis j with
          | false => rfl
          | true => exact absurd (List.mem_filter.mpr ⟨hj, hfi⟩) hjf
      rw [List.filter_congr hcong]
      rfl
  have hAN : ∀ i ∈ entry.bidders,
      dictGet (testFree d.taxis entry.bidders
        (buildVari d.taxis.length entry.bidders)).1 i = some flagsA ∨
      dictGet (testFree d.taxis entry.bidders
        (buildVari d.taxis.length entry.bidders)).1 i = some flagsN := by
    intro i hi
    rw [htfch i, if_pos hi]
    by_cases hc : freeBidders d.taxis entry.bidders = [] ∨
        i ∈ freeBidders d.taxis entry.bidders
    · rw [if_pos hc]; left; rfl
    · rw [if_neg hc]; right; rfl
  have hT : ∀ i ∈ entry.bidders,
      dictGet (testFree d.taxis entry.bidders
        (buildVari d.taxis.length entry.bidders)).1 i = some flagsA →
      ∃ t, d.taxis.get? i = some t ∧ (t.passenger = true → t.path ≠ []) := by
    intro i hi _
    obtain ⟨t, ht⟩ : ∃ t, d.taxis.get? i = some t :=
      ⟨_, List.get?_eq_get (hrange i hi)⟩
    exact ⟨t, ht, hpaths i hi t ht⟩
  have hdl := distLoop_char w d.taxis dst
    (testFree d.taxis entry.bidders (buildVari d.taxis.length entry.bidders)).1
    entry.bidders [] hnodup hAN hT (fun i _ => rfl)
  rw [List.nil_append, hfilter] at hdl
  have hSne : survivors d.taxis entry.bidders ≠ [] := by
    unfold survivors
    by_cases hfree : freeBidders d.taxis entry.bidders = []
    · rw [if_pos hfree]; exact hne
    · rw [if_neg hfree]; exact hfree
  obtain ⟨k0, S0, hS⟩ := List.exists_cons_of_ne_nil hSne
  obtain ⟨k, S1, S2, hmin, hdec, h1, h2⟩ :=
    minLoopGo_char (bidderCost w d.taxis dst) S0 k0
  have hSdec : survivors d.taxis entry.bidders = S1 ++ k :: S2 := by rw [hS, hdec]
  have hkS : k ∈ survivors d.taxis entry.bidders := by
    rw [hSdec]
    exact List.mem_append_right _ (List.mem_cons_self _ _)
  have hkbs : k ∈ entry.bidders := by
    revert hkS
    unfold survivors
    by_cases hfree : freeBidders d.taxis entry.bidders = []
    · rw [if_pos hfree]; exact id
    · rw [if_neg hfree]; exact fun h => List.mem_of_mem_filter h
  obtain ⟨tk, htk⟩ : ∃ t, d.taxis.get? k = some t :=
    ⟨_, List.get?_eq_get (hrange k hkbs)⟩
  have hminS : minLoop ((survivors d.taxis entry.bidders).map
      (fun i => (i, bidderCost w d.taxis dst i))) =
      some (k, bidderCost w d.taxis dst k) := by
    rw [hS]
    simp only [List.map_cons, minLoop]
    rw [hmin]
  have htd : testDist w d.taxis dst entry.bidders
      (testFree d.taxis entry.bidders (buildVari d.taxis.length entry.bidders)).1 =
      stripLoop (some k) entry.bidders
        (testFree d.taxis entry.bidders (buildVari d.taxis.length entry.bidders)).1 := by
    simp only [testDist, hdl, hminS, Option.map_some']
  obtain ⟨hst2, hstch, hstlo⟩ := stripLoop_char k entry.bidders
    (testFree d.taxis entry.bidders (buildVari d.taxis.length entry.bidders)).1
    (fun i hi _ => hAN i hi)
  have hkeys2 : ((stripLoop (some k) entry.bidders
      (testFree d.taxis entry.bidders
        (buildVari d.taxis.length entry.bidders)).1).1).map Prod.fst =
      (buildVari d.taxis.length entry.bidders).map Prod.fst := by
    rw [stripLoop_keys, htfkeys]
  have hnodk : keysNodup (stripLoop (some k) entry.bidders
      (testFree d.taxis entry.bidders
        (buildVari d.taxis.length entry.bidders)).1).1 := by
    unfold keysNodup
    rw [hkeys2]
    exact buildVari_keysNodup _ _
  have hkA : dictGet (testFree d.taxis entry.bidders
      (buildVari d.taxis.length entry.bidders)).1 k = some flagsA := by
    rw [htfch k, if_pos hkbs]
    by_cases hfree : freeBidders d.taxis entry.bidders = []
    · rw [if_pos (Or.inl hfree)]
    · have hkf : k ∈ freeBidders d.taxis entry.bidders := by
        have hx := hkS
        unfold survivors at hx
        rw [if_neg hfree] at hx
        exact hx
      rw [if_pos (Or.inr hkf)]
  have hkmem : k ∈ ((stripLoop (some k) entry.bidders
      (testFree d.taxis entry.bidders
        (buildVari d.taxis.length entry.bidders)).1).1).map Prod.fst := by
    rw [hkeys2]
    exact List.mem_map.mpr ⟨(k, flagsA), dictGet_some_mem _ _ _
      (by rw [buildVari_get, if_pos ⟨hkbs, hrange k hkbs⟩]), rfl⟩
  have hiff : ∀ p ∈ (stripLoop (some k) entry.bidders
      (testFree d.taxis entry.bidders
        (buildVari d.taxis.length entry.bidders)).1).1,
      ("allocate" ∈ p.2 ↔ p.1 = k) := by
    intro p hp
    have hget : dictGet (stripLoop (some k) entry.bidders
        (testFree d.taxis entry.bidders
          (buildVari d.taxis.length entry.bidders)).1).1 p.1 = some p.2 :=
      mem_dictGet_of_keysNodup _ p.1 p.2 hnodk hp
    have hp1 : p.1 ∈ entry.bidders := by
      have hpk : p.1 ∈ ((stripLoop (some k) entry.bidders
          (testFree d.taxis entry.bidders
            (buildVari d.taxis.length entry.bidders)).1).1).map Prod.fst :=
        List.mem_map.mpr ⟨p, hp, rfl⟩
      rw [hkeys2] at hpk
      obtain ⟨q, hq, hq1⟩ := List.mem_map.mp hpk
      rcases buildVari_mem d.taxis.length entry.bidders [] q hq with h | h
      · exact hq1 ▸ h
      · simp at h
    constructor
    · intro hall
      by_contra hpk
      have hx := hget.symm.trans (hstch p.1 hpk)
      rw [if_pos hp1] at hx
      have hx2 : p.2 = flagsN := Option.some.inj hx
      exact not_mem_flagsN (hx2 ▸ hall)
    · intro hpk
      rw [hpk] at hget
      have hx := hget.symm.trans (hstlo.trans hkA)
      have hx2 : p.2 = flagsA := Option.some.inj hx
      rw [hx2]
      exact mem_flagsA
  have hwl := winnerLoop_single d.taxis o k tk htk
    (stripLoop (some k) entry.bidders
      (testFree d.taxis entry.bidders
        (buildVari d.taxis.length entry.bidders)).1).1
    entry hiff hnodk hkmem
  refine ⟨k, tk, S1, S2, htk, hSdec, h1, h2, ?_⟩
  set V1 := (testFree d.taxis entry.bidders
    (buildVari d.taxis.length entry.bidders)).1 with hV1
  set V2 := (stripLoop (some k) entry.bidders V1).1 with hV2
  have hpairtf : testFree d.taxis entry.bidders
      (buildVari d.taxis.length entry.bidders) = (V1, none) := by
    rw [← htf2, hV1]
  have hpairtd : testDist w d.taxis dst entry.bidders V1 = (V2, none) := by
    rw [htd, ← hst2, hV2]
  simp only [allocateFare, if_pos hgate, hentry, if_pos hv1, hpairtf]
  simp only [hpairtd]
  simp only [hwl]

/-- C3: the deadline gate — while simTime - calltime ≤ 3 the allocation
routine writes nothing, notifies nobody and raises nothing; once
simTime - calltime > 3, on every such tick, a fare that exists and has at
least one (well-formed) bidder is assigned: a nonnegative unit index is
written into its record and exactly one allocation notice is emitted to
that unit. -/
theorem allocate_deadline_gate (w : World) (d : Dispatcher) (o dst : Coord) (τ : Int)
    (entry : FareEntry) :
    (w.simTime - τ ≤ 3 → allocateFare w d o dst τ = (d, [], none)) ∧
    (3 < w.simTime - τ →
     lookupEntry d.fareBoard o dst τ = some entry →
     entry.bidders ≠ [] →
     (∀ i ∈ entry.bidders, i < d.taxis.length) →
     entry.bidders.Nodup →
     (∀ i ∈ entry.bidders, ∀ t, d.taxis.get? i = some t →
        t.passenger = true → t.path ≠ []) →
     ∃ k t, d.taxis.get? k = some t ∧
       allocateFare w d o dst τ =
         ({ d with fareBoard := updateEntry d.fareBoard o dst τ (fun _ => { entry with taxi := (k : Int) }) },
          [Event.allocateFare o t], none) ∧
       (0 : Int) ≤ (k : Int)) := by
  constructor
  · intro hle
    have hgate : ¬3 < w.simTime - τ := by omega
    simp only [allocateFare, if_neg hgate]
  · intro hgate hentry hne hrange hnodup hpaths
    obtain ⟨k, t, S1, S2, htk, _, _, _, heq⟩ :=
      allocate_master w d o dst τ entry hgate hentry hne hrange hnodup hpaths
    exact ⟨k, t, htk, heq, Int.natCast_nonneg k⟩

def fareMixed : FareEntry := ⟨(1, 1), (2, 2), 0, 20, -1, [1, 0]⟩
def dAlloc : Dispatcher := ⟨0, 0, [tIdle, tBusy], [((1, 1), [((2, 2), [(0, fareMixed)])])], 0⟩

theorem dAlloc_paths : ∀ i ∈ fareMixed.bidders, ∀ t, dAlloc.taxis.get? i = some t →
    t.passenger = true → t.path ≠ [] := by
  intro i hi t ht
  have hi2 : i = 1 ∨ i = 0 := by
    simpa [fareMixed] using hi
  rcases hi2 with h | h <;> subst h
  · have ht2 : t = tBusy := by
      have : dAlloc.taxis.get? 1 = some tBusy := rfl
      rw [this] at ht
      exact (Option.some.inj ht).symm
    subst ht2
    intro _
    simp [tBusy]
  · have ht2 : t = tIdle := by
      have : dAlloc.taxis.get? 0 = some tIdle := rfl
      rw [this] at ht
      exact (Option.some.inj ht).symm
    subst ht2
    intro hp
    simp [tIdle] at hp

/-- Witness for C3: both sides of the gate at concrete inputs. -/
theorem allocate_deadline_gate_witness :
    wEarly.simTime - 0 ≤ 3 ∧
    allocateFare wEarly dAlloc (1, 1) (2, 2) 0 = (dAlloc, [], none) ∧
    3 < wLate.simTime - 0 ∧
    (∃ k t, dAlloc.taxis.get? k = some t ∧
      allocateFare wLate dAlloc (1, 1) (2, 2) 0 =
        ({ dAlloc with fareBoard := updateEntry dAlloc.fareBoard (1, 1) (2, 2) 0 (fun _ => { fareMixed with taxi := (k : Int) }) },
         [Event.allocateFare (1, 1) t], none) ∧
      (0 : Int) ≤ (k : Int)) := by
  refine ⟨by decide, ?_, by decide, ?_⟩
  · exact (allocate_deadline_gate wEarly dAlloc (1, 1) (2, 2) 0 fareMixed).1 (by decide)
  · exact (allocate_deadline_gate wLate dAlloc (1, 1) (2, 2) 0 fareMixed).2
      (by decide) rfl (by decide) (by decide) (by decide) dAlloc_paths

/-- C4: availability precedence — in any allocation pass past the deadline
on a present fare with a well-formed bidder list holding at least one idle
unit and at least one busy unit, every unit notified as winner has no
passenger: a busy unit is never chosen. -/
theorem availability_precedence (w : World) (d : Dispatcher) (o dst : Coord) (τ : Int)
    (entry : FareEntry)
    (hgate : 3 < w.simTime - τ)
    (hentry : lookupEntry d.fareBoard o dst τ = some entry)
    (hne : entry.bidders ≠ [])
    (hrange : ∀ i ∈ entry.bidders, i < d.taxis.length)
    (hnodup : entry.bidders.Nodup)
    (hpaths : ∀ i ∈ entry.bidders, ∀ t, d.taxis.get? i = some t →
       t.passenger = true → t.path ≠ [])
    (hidle : ∃ i ∈ entry.bidders, ∃ t, d.taxis.get? i = some t ∧ t.passenger = false)
    (_hbusy : ∃ i ∈ entry.bidders, ∃ t, d.taxis.get? i = some t ∧ t.passenger = true) :
    ∀ t, Event.allocateFare o t ∈ (allocateFare w d o dst τ).2.1 →
      t.passenger = false := by
  obtain ⟨k, tk, S1, S2, htk, hSdec, h1, h2, heq⟩ :=
    allocate_master w d o dst τ entry hgate hentry hne hrange hnodup hpaths
  intro t ht
  rw [heq] at ht
  simp only [List.mem_cons, List.not_mem_nil, or_false] at ht
  have htt : t = tk := by
    injection ht with ha hb
    try exact hb
  subst htt
  have hfree_ne : freeBidders d.taxis entry.bidders ≠ [] := by
    obtain ⟨i, hi, ti, hti, hp⟩ := hidle
    intro hc
    have hti2 : d.taxis[i]? = some ti := by rw [← List.get?_eq_getElem?]; exact hti
    have hmem : i ∈ freeBidders d.taxis entry.bidders :=
      List.mem_filter.mpr ⟨hi, by simp [isFreeIdx, hti, hti2, hp]⟩
    rw [hc] at hmem
    simp at hmem
  have hkS : k ∈ survivors d.taxis entry.bidders := by
    rw [hSdec]
    exact List.mem_append_right _ (List.mem_cons_self _ _)
  have hkf : k ∈ freeBidders d.taxis entry.bidders := by
    unfold survivors at hkS
    rw [if_neg hfree_ne] at hkS
    exact hkS
  have hfi : isFreeIdx d.taxis k = true := (List.mem_filter.mp hkf).2
  simp only [isFreeIdx, htk, Bool.not_eq_true'] at hfi
  exact hfi

/-- Witness for C4 at a concrete mixed bidder set: the notified winner is
the idle unit. -/
theorem availability_precedence_witness :
    Event.allocateFare (1, 1) tIdle ∈ (allocateFare wLate dAlloc (1, 1) (2, 2) 0).2.1 ∧
    tIdle.passenger = false :=
  ⟨List.mem_cons_self _ _,
   availability_precedence wLate dAlloc (1, 1) (2, 2) 0 fareMixed
     (by decide) rfl (by decide) (by decide) (by decide) dAlloc_paths
     ⟨0, by decide, tIdle, rfl, rfl⟩ ⟨1, by decide, tBusy, rfl, rfl⟩
     tIdle (List.mem_cons_self _ _)⟩

/-- C5: the distance filter — in any allocation pass past the deadline on a
present fare with a well-formed bidder list, the winner written into the
record and notified attains the minimum detour cost among the candidates
surviving the availability filter (busy unit: current location to its
drop-off plus drop-off to the new destination; idle unit: current location
to the new destination), and every survivor occurring before the winner in
the bidder list's insertion order has strictly greater cost. -/
theorem distance_filter_winner (w : World) (d : Dispatcher) (o dst : Coord) (τ : Int)
    (entry : FareEntry)
    (hgate : 3 < w.simTime - τ)
    (hentry : lookupEntry d.fareBoard o dst τ = some entry)
    (hne : entry.bidders ≠ [])
    (hrange : ∀ i ∈ entry.bidders, i < d.taxis.length)
    (hnodup : entry.bidders.Nodup)
    (hpaths : ∀ i ∈ entry.bidders, ∀ t, d.taxis.get? i = some t →
       t.passenger = true → t.path ≠ []) :
    ∃ k t S1 S2,
      d.taxis.get? k = some t ∧
      survivors d.taxis entry.bidders = S1 ++ k :: S2 ∧
      (∀ j ∈ S1, bidderCost w d.taxis dst k < bidderCost w d.taxis dst j) ∧
      (∀ j ∈ S2, bidderCost w d.taxis dst k ≤ bidderCost w d.taxis dst j) ∧
      allocateFare w d o dst τ =
        ({ d with fareBoard := updateEntry d.fareBoard o dst τ (fun _ => { entry with taxi := (k : Int) }) },
         [Event.allocateFare o t], none) :=
  allocate_master w d o dst τ entry hgate hentry hne hrange hnodup hpaths

/-- Witness for C5 at a concrete mixed bidder set. -/
theorem distance_filter_winner_witness :
    ∃ k t S1 S2,
      dAlloc.taxis.get? k = some t ∧
      survivors dAlloc.taxis fareMixed.bidders = S1 ++ k :: S2 ∧
      (∀ j ∈ S1, bidderCost wLate dAlloc.taxis (2, 2) k <
        bidderCost wLate dAlloc.taxis (2, 2) j) ∧
      (∀ j ∈ S2, bidderCost wLate dAlloc.taxis (2, 2) k ≤
        bidderCost wLate dAlloc.taxis (2, 2) j) ∧
      allocateFare wLate dAlloc (1, 1) (2, 2) 0 =
        ({ dAlloc with fareBoard := updateEntry dAlloc.fareBoard (1, 1) (2, 2) 0 (fun _ => { fareMixed with taxi := (k : Int) }) },
         [Event.allocateFare (1, 1) t], none) :=
  distance_filter_winner wLate dAlloc (1, 1) (2, 2) 0 fareMixed
    (by decide) rfl (by decide) (by decide) (by decide) dAlloc_paths
